import Mathlib

/-!
CW (Morse) encoder of the UPSat communication subsystem.

A shallow embedding of `Src/cw.c`: the duration table `cw_duration_lut`,
the table builder `cw_init` and the encoder `cw_encode`, followed by the
properties of the encoder that are established on it.

The header `cw.h` (the symbol enumeration, the entry structure and the
return codes) is not part of the sources at hand; the declarations it would
provide are modelled below and marked as such.
-/

set_option maxRecDepth 100000

namespace CW

/-! ## Data model -/

/-- Modelled from the spec: the enumeration of Morse elements declared in the
absent header `cw.h`. The constructors are listed in the order in which
`cw_duration_lut` lists their durations (dot, dash, character space, word
space, symbol space, terminator), so that constructor number `k` is the
enumeration value `k`. -/
inductive cw_symbol_t where
  | CW_DOT
  | CW_DASH
  | CW_CHAR_DELIM
  | CW_WORD_DELIM
  | CW_SYMBOL_DELIM
  | CW_INVALID
deriving DecidableEq, Repr

open cw_symbol_t

/-- The integer value of an enumeration constant, used to index
`cw_duration_lut`. -/
def cw_symbol_t.toNat : cw_symbol_t → Nat
  | CW_DOT => 0
  | CW_DASH => 1
  | CW_CHAR_DELIM => 2
  | CW_WORD_DELIM => 3
  | CW_SYMBOL_DELIM => 4
  | CW_INVALID => 5

/-- The enumeration constant whose integer value is zero: what a slot of the
element array holds after `memset(..., 0, ...)`. -/
def cw_symbol_zero : cw_symbol_t := CW_DOT

/-- Modelled from the spec: the capacity of the element array of an entry
(`s[10]` in the absent header; "maximum 10 elements"). -/
def CW_MAX_SYMBOLS : Nat := 10

/-- Modelled from the spec: the entry structure `cw_char_t` of the absent
header: the element array `s`, the count of elements in use `s_num` and the
validity flag `is_valid` (an integer flag, tested with `!`). -/
structure cw_char_t where
  s : List cw_symbol_t
  s_num : Nat
  is_valid : Nat
deriving DecidableEq, Repr

/-- Modelled from the spec: the two return codes of the absent header, the
success result `CW_OK` and the failure result `CW_ERROR`. -/
inductive cw_status_t where
  | CW_OK
  | CW_ERROR
deriving DecidableEq, Repr

open cw_status_t

/-- A byte (`uint8_t`). -/
abbrev uint8_t := Fin 256

/-- The byte value of a character constant such as `'A'`. -/
def chr (c : Char) : uint8_t := ⟨c.toNat % 256, Nat.mod_lt _ (by decide)⟩

/-- The table `static cw_char_t cw_lut[256]`: one entry per byte value. -/
abbrev cw_lut_t := uint8_t → cw_char_t

/-- An output buffer `cw_char_t *out`, addressed by index. -/
abbrev cw_out_t := Nat → cw_char_t

/-- The elements in use of an entry: the first `s_num` slots of `s`. -/
def cw_char_t.used (e : cw_char_t) : List cw_symbol_t := e.s.take e.s_num

/-! ## Durations -/

def CW_DOT_DURATION_MS : Nat := 200
def CW_DASH_DURATION_MS : Nat := (3 * CW_DOT_DURATION_MS) % 2 ^ 32
def CW_SYMBOL_SPACE_MS : Nat := CW_DOT_DURATION_MS
def CW_CHAR_SPACE_MS : Nat := (3 * CW_DOT_DURATION_MS) % 2 ^ 32
def CW_WORD_SPACE_MS : Nat := (4 * CW_DOT_DURATION_MS) % 2 ^ 32

/-- The table `static const uint32_t cw_duration_lut[6]`. -/
def cw_duration_lut : List Nat :=
  [ CW_DOT_DURATION_MS, CW_DASH_DURATION_MS,
    CW_CHAR_SPACE_MS, CW_WORD_SPACE_MS,
    CW_SYMBOL_SPACE_MS, 0 ]

/-- The duration in milliseconds of one element: `cw_duration_lut[sym]`. -/
def cw_duration (sym : cw_symbol_t) : Nat := cw_duration_lut.getD sym.toNat 0

/-- The total duration of the elements in use of an entry, in `uint32_t`
arithmetic. -/
def cw_char_duration (e : cw_char_t) : Nat :=
  e.used.foldl (fun acc sym => (acc + cw_duration sym) % 2 ^ 32) 0

/-! ## cw_init -/

/-- An entry with every byte zero. -/
def cw_char_zero : cw_char_t :=
  { s := List.replicate CW_MAX_SYMBOLS cw_symbol_zero, s_num := 0, is_valid := 0 }

/-- The state of `cw_init`: the table and the local counter `uint8_t i`. -/
structure init_state where
  cw_lut : cw_lut_t
  i : Nat

/-- Replace the entry of byte `c` by `f` applied to it. -/
def cw_lut_modify (cw_lut : cw_lut_t) (c : uint8_t) (f : cw_char_t → cw_char_t) : cw_lut_t :=
  fun k => if k = c then f (cw_lut k) else cw_lut k

/-- The statement `memset(cw_lut, 0, 256 * sizeof(cw_char_t))`. -/
def memset_zero (_cw_lut : cw_lut_t) : cw_lut_t := fun _ => cw_char_zero

/-- The statement `i = 0`. -/
def assign_i_zero (st : init_state) : init_state := { st with i := 0 }

/-- The statement `cw_lut[c].is_valid = v`. -/
def assign_is_valid (c : Char) (v : Nat) (st : init_state) : init_state :=
  { st with cw_lut := cw_lut_modify st.cw_lut (chr c) (fun e => { e with is_valid := v }) }

/-- The statement `cw_lut[c].s[i++] = sym`. -/
def assign_s_post_inc (c : Char) (st : init_state) (sym : cw_symbol_t) : init_state :=
  { cw_lut := cw_lut_modify st.cw_lut (chr c) (fun e => { e with s := e.s.set st.i sym }),
    i := (st.i + 1) % 256 }

/-- The statement `cw_lut[c].s_num = i`. -/
def assign_s_num_i (c : Char) (st : init_state) : init_state :=
  { st with cw_lut := cw_lut_modify st.cw_lut (chr c) (fun e => { e with s_num := st.i }) }

/-- The statement `cw_lut[c].s[idx] = sym`. -/
def assign_s (c : Char) (idx : Nat) (sym : cw_symbol_t) (st : init_state) : init_state :=
  { st with cw_lut := cw_lut_modify st.cw_lut (chr c) (fun e => { e with s := e.s.set idx sym }) }

/-- The statement `cw_lut[c].s_num = n`. -/
def assign_s_num (c : Char) (n : Nat) (st : init_state) : init_state :=
  { st with cw_lut := cw_lut_modify st.cw_lut (chr c) (fun e => { e with s_num := n }) }

/-- One block of `cw_init` for a letter or digit `c`:
`i = 0; cw_lut[c].is_valid = 1; cw_lut[c].s[i++] = ...; ...; cw_lut[c].s_num = i;`
with the right-hand sides of the `s[i++]` assignments given in order. -/
def char_block (c : Char) (syms : List cw_symbol_t) (st : init_state) : init_state :=
  let st := assign_i_zero st
  let st := assign_is_valid c 1 st
  let st := syms.foldl (assign_s_post_inc c) st
  assign_s_num_i c st

/-- The function `cw_init`, on an arbitrary prior table; the blocks are in
source order. -/
def cw_init (cw_lut : cw_lut_t) : cw_lut_t :=
  let st : init_state := { cw_lut := memset_zero cw_lut, i := 0 }
  let st := char_block 'A' [CW_DOT, CW_SYMBOL_DELIM, CW_DASH, CW_CHAR_DELIM] st
  let st := char_block 'B' [CW_DASH, CW_SYMBOL_DELIM, CW_DOT, CW_SYMBOL_DELIM, CW_DOT,
    CW_SYMBOL_DELIM, CW_DOT, CW_CHAR_DELIM] st
  let st := char_block 'C' [CW_DASH, CW_SYMBOL_DELIM, CW_DOT, CW_SYMBOL_DELIM, CW_DASH,
    CW_SYMBOL_DELIM, CW_DOT, CW_CHAR_DELIM] st
  let st := char_block 'D' [CW_DASH, CW_SYMBOL_DELIM, CW_DOT, CW_SYMBOL_DELIM, CW_DOT,
    CW_CHAR_DELIM] st
  let st := char_block 'E' [CW_DOT, CW_CHAR_DELIM] st
  let st := char_block 'F' [CW_DOT, CW_SYMBOL_DELIM, CW_DOT, CW_SYMBOL_DELIM, CW_DASH,
    CW_SYMBOL_DELIM, CW_DOT, CW_CHAR_DELIM] st
  let st := char_block 'G' [CW_DASH, CW_SYMBOL_DELIM, CW_DASH, CW_SYMBOL_DELIM, CW_DOT,
    CW_CHAR_DELIM] st
  let st := char_block 'H' [CW_DOT, CW_SYMBOL_DELIM, CW_DOT, CW_SYMBOL_DELIM, CW_DOT,
    CW_SYMBOL_DELIM, CW_DOT, CW_CHAR_DELIM] st
  let st := char_block 'I' [CW_DOT, CW_SYMBOL_DELIM, CW_DOT, CW_CHAR_DELIM] st
  let st := char_block 'J' [CW_DOT, CW_SYMBOL_DELIM, CW_DASH, CW_SYMBOL_DELIM, CW_DASH,
    CW_SYMBOL_DELIM, CW_DASH, CW_CHAR_DELIM] st
  let st := char_block 'K' [CW_DASH, CW_SYMBOL_DELIM, CW_DOT, CW_SYMBOL_DELIM, CW_DASH,
    CW_CHAR_DELIM] st
  let st := char_block 'L' [CW_DOT, CW_SYMBOL_DELIM, CW_DASH, CW_SYMBOL_DELIM, CW_DOT,
    CW_SYMBOL_DELIM, CW_DOT, CW_CHAR_DELIM] st
  let st := char_block 'M' [CW_DASH, CW_SYMBOL_DELIM, CW_DASH, CW_CHAR_DELIM] st
  let st := char_block 'N' [CW_DASH, CW_SYMBOL_DELIM, CW_DOT, CW_CHAR_DELIM] st
  let st := char_block 'O' [CW_DASH, CW_SYMBOL_DELIM, CW_DASH, CW_SYMBOL_DELIM, CW_DASH,
    CW_CHAR_DELIM] st
  let st := char_block 'P' [CW_DOT, CW_SYMBOL_DELIM, CW_DASH, CW_SYMBOL_DELIM, CW_DASH,
    CW_SYMBOL_DELIM, CW_DOT, CW_CHAR_DELIM] st
  let st := char_block 'Q' [CW_DASH, CW_SYMBOL_DELIM, CW_DASH, CW_SYMBOL_DELIM, CW_DOT,
    CW_SYMBOL_DELIM, CW_DASH, CW_CHAR_DELIM] st
  let st := char_block 'R' [CW_DOT, CW_SYMBOL_DELIM, CW_DASH, CW_SYMBOL_DELIM, CW_DOT,
    CW_CHAR_DELIM] st
  let st := char_block 'S' [CW_DOT, CW_SYMBOL_DELIM, CW_DOT, CW_SYMBOL_DELIM, CW_DOT,
    CW_CHAR_DELIM] st
  let st := char_block 'T' [CW_DASH, CW_CHAR_DELIM] st
  let st := char_block 'U' [CW_DOT, CW_SYMBOL_DELIM, CW_DOT, CW_SYMBOL_DELIM, CW_DASH,
    CW_CHAR_DELIM] st
  let st := char_block 'V' [CW_DOT, CW_SYMBOL_DELIM, CW_DOT, CW_SYMBOL_DELIM, CW_DOT,
    CW_SYMBOL_DELIM, CW_DASH, CW_CHAR_DELIM] st
  let st := char_block 'W' [CW_DOT, CW_SYMBOL_DELIM, CW_DASH, CW_SYMBOL_DELIM, CW_DASH,
    CW_CHAR_DELIM] st
  let st := char_block 'Y' [CW_DASH, CW_SYMBOL_DELIM, CW_DOT, CW_SYMBOL_DELIM, CW_DASH,
    CW_SYMBOL_DELIM, CW_DASH, CW_CHAR_DELIM] st
  let st := char_block 'Z' [CW_DASH, CW_SYMBOL_DELIM, CW_DASH, CW_SYMBOL_DELIM, CW_DOT,
    CW_SYMBOL_DELIM, CW_DOT, CW_CHAR_DELIM] st
  let st := char_block '1' [CW_DOT, CW_SYMBOL_DELIM, CW_DASH, CW_SYMBOL_DELIM, CW_DASH,
    CW_SYMBOL_DELIM, CW_DASH, CW_SYMBOL_DELIM, CW_DASH, CW_CHAR_DELIM] st
  let st := char_block '2' [CW_DOT, CW_SYMBOL_DELIM, CW_DOT, CW_SYMBOL_DELIM, CW_DASH,
    CW_SYMBOL_DELIM, CW_DASH, CW_SYMBOL_DELIM, CW_DASH, CW_CHAR_DELIM] st
  let st := char_block '3' [CW_DOT, CW_SYMBOL_DELIM, CW_DOT, CW_SYMBOL_DELIM, CW_DOT,
    CW_SYMBOL_DELIM, CW_DASH, CW_SYMBOL_DELIM, CW_DASH, CW_CHAR_DELIM] st
  let st := char_block '4' [CW_DOT, CW_SYMBOL_DELIM, CW_DOT, CW_SYMBOL_DELIM, CW_DOT,
    CW_SYMBOL_DELIM, CW_DOT, CW_SYMBOL_DELIM, CW_DASH, CW_CHAR_DELIM] st
  let st := char_block '5' [CW_DOT, CW_SYMBOL_DELIM, CW_DOT, CW_SYMBOL_DELIM, CW_DOT,
    CW_SYMBOL_DELIM, CW_DOT, CW_SYMBOL_DELIM, CW_DOT, CW_CHAR_DELIM] st
  let st := char_block '6' [CW_DASH, CW_SYMBOL_DELIM, CW_DOT, CW_SYMBOL_DELIM, CW_DOT,
    CW_SYMBOL_DELIM, CW_DOT, CW_SYMBOL_DELIM, CW_DOT, CW_CHAR_DELIM] st
  let st := char_block '7' [CW_DASH, CW_SYMBOL_DELIM, CW_DASH, CW_SYMBOL_DELIM, CW_DOT,
    CW_SYMBOL_DELIM, CW_DOT, CW_SYMBOL_DELIM, CW_DOT, CW_CHAR_DELIM] st
  let st := char_block '8' [CW_DASH, CW_SYMBOL_DELIM, CW_DASH, CW_SYMBOL_DELIM, CW_DASH,
    CW_SYMBOL_DELIM, CW_DOT, CW_SYMBOL_DELIM, CW_DOT, CW_CHAR_DELIM] st
  let st := char_block '9' [CW_DASH, CW_SYMBOL_DELIM, CW_DASH, CW_SYMBOL_DELIM, CW_DASH,
    CW_SYMBOL_DELIM, CW_DASH, CW_SYMBOL_DELIM, CW_DOT, CW_CHAR_DELIM] st
  let st := char_block '0' [CW_DASH, CW_SYMBOL_DELIM, CW_DASH, CW_SYMBOL_DELIM, CW_DASH,
    CW_SYMBOL_DELIM, CW_DASH, CW_SYMBOL_DELIM, CW_DASH, CW_CHAR_DELIM] st
  let st := assign_is_valid ' ' 1 st
  let st := assign_s ' ' 0 CW_WORD_DELIM st
  let st := assign_s_num ' ' 1 st
  st.cw_lut

/-! ## cw_encode -/

/-- The loop of `cw_encode` from index `i` on, `inp` being the bytes
`in[i], ..., in[len-1]` still to be read:
`out[i] = cw_lut[in[i]]; if(!out[i].is_valid) return CW_ERROR;` and
`return CW_OK` once `i` has reached `len`. -/
def cw_encode_loop (cw_lut : cw_lut_t) (out : cw_out_t) (i : Nat) :
    List uint8_t → cw_status_t × cw_out_t
  | [] => (CW_OK, out)
  | b :: rest =>
    let out : cw_out_t := fun k => if k = i then cw_lut b else out k
    if (out i).is_valid = 0 then (CW_ERROR, out)
    else cw_encode_loop cw_lut out (i + 1) rest

/-- The function `cw_encode(out, in, len)` reading the table `cw_lut`; `inp`
is the input buffer, of length `len`. The result is the return code and the
output buffer after the call. -/
def cw_encode (cw_lut : cw_lut_t) (out : cw_out_t) (inp : List uint8_t) :
    cw_status_t × cw_out_t :=
  cw_encode_loop cw_lut out 0 inp

/-! ## The character set and the ITU codes as the specification gives them -/

/-- The zero-initialised table (static storage before `cw_init` has run). -/
def cw_lut_zero : cw_lut_t := fun _ => cw_char_zero

/-- The byte is an uppercase letter `A`-`Z` other than `X`. -/
def is_letter_not_X (b : uint8_t) : Prop :=
  chr 'A' ≤ b ∧ b ≤ chr 'Z' ∧ b ≠ chr 'X'

/-- The byte is a digit `0`-`9`. -/
def is_digit (b : uint8_t) : Prop := chr '0' ≤ b ∧ b ≤ chr '9'

/-- The supported set of the specification: `A`-`Z` except `X`, `0`-`9`, space. -/
def is_supported (b : uint8_t) : Prop :=
  is_letter_not_X b ∨ is_digit b ∨ b = chr ' '

instance (b : uint8_t) : Decidable (is_letter_not_X b) := by
  unfold is_letter_not_X; infer_instance

instance (b : uint8_t) : Decidable (is_digit b) := by
  unfold is_digit; infer_instance

instance (b : uint8_t) : Decidable (is_supported b) := by
  unfold is_supported; infer_instance

/-- The codes of section 4.1 of the specification, as written there
(dot = `.`, dash = `-`). -/
def itu_codes : List (Char × String) :=
  [ ('A', ".-"), ('B', "-..."), ('C', "-.-."), ('D', "-.."), ('E', "."), ('F', "..-."),
    ('G', "--."), ('H', "...."), ('I', ".."), ('J', ".---"), ('K', "-.-"), ('L', ".-.."),
    ('M', "--"), ('N', "-."), ('O', "---"), ('P', ".--."), ('Q', "--.-"), ('R', ".-."),
    ('S', "..."), ('T', "-"), ('U', "..-"), ('V', "...-"), ('W', ".--"), ('Y', "-.--"),
    ('Z', "--.."), ('0', "-----"), ('1', ".----"), ('2', "..---"), ('3', "...--"),
    ('4', "....-"), ('5', "....."), ('6', "-...."), ('7', "--..."), ('8', "---.."),
    ('9', "----.") ]

/-- The code the specification lists for a byte, if it lists one. -/
def itu_code (b : uint8_t) : Option String :=
  (itu_codes.find? (fun p => decide (chr p.1 = b))).map (·.2)

/-- The pulse a code character stands for. -/
def pulse_of (c : Char) : cw_symbol_t := if c = '.' then CW_DOT else CW_DASH

/-- The element sequence the specification prescribes for a code: its pulses
in order, one symbol gap between consecutive pulses, one character gap after
the last pulse. -/
def itu_elements (code : String) : List cw_symbol_t :=
  (code.toList.map pulse_of).intersperse CW_SYMBOL_DELIM ++ [CW_CHAR_DELIM]

/-! ## cw_encode on the memory it works on -/

/-- The memory `cw_encode` works on: the file-scope table `cw_lut` and the
buffer `out` of the caller. The table is `static` and no function of `cw.c`
hands out its address, so `out` does not overlap it. -/
structure cw_memory where
  cw_lut : cw_lut_t
  out : cw_out_t

/-- The statement `out[i] = cw_lut[in[i]]`, `b` being the byte `in[i]`. -/
def assign_out (i : Nat) (b : uint8_t) (m : cw_memory) : cw_memory :=
  { m with out := fun k => if k = i then m.cw_lut b else m.out k }

/-- The loop of `cw_encode` as a transformer of the memory, from index `i`
on, the list being the bytes `in[i], ..., in[len-1]`. -/
def cw_encode_mem_loop (m : cw_memory) (i : Nat) : List uint8_t → cw_status_t × cw_memory
  | [] => (CW_OK, m)
  | b :: rest =>
    let m := assign_out i b m
    if (m.out i).is_valid = 0 then (CW_ERROR, m)
    else cw_encode_mem_loop m (i + 1) rest

/-- The function `cw_encode(out, in, len)` as a transformer of the memory:
the return code and the memory after the call. -/
def cw_encode_mem (m : cw_memory) (inp : List uint8_t) : cw_status_t × cw_memory :=
  cw_encode_mem_loop m 0 inp

/-- The element stream a consumer reads from the first `n` entries of an
output buffer: the elements in use of each entry, in order. -/
def cw_stream (out : cw_out_t) (n : Nat) : List cw_symbol_t :=
  (List.range n).flatMap (fun i => (out i).used)

/-! ## cw_encode with its memory accesses recorded -/

/-- The accesses of a run of `cw_encode`: the number of executions of the
loop body, and the indices at which `in` was read, `cw_lut` was read and
`out` was written (most recent first). -/
structure cw_access where
  iterations : Nat
  in_reads : List Nat
  lut_reads : List Nat
  out_writes : List Nat

/-- The ways a run of `cw_encode` on `len` input bytes can end: it returns,
it reads `in` at an index outside `0..len-1`, it indexes `cw_lut` outside
`0..255`, or it is still looping when the step budget is used up. -/
inductive cw_outcome where
  | returned (code : cw_status_t) (out : cw_out_t) (acc : cw_access)
  | in_out_of_range (i : Nat)
  | lut_out_of_range (idx : Nat)
  | no_fuel

/-- The access record after one more execution of the loop body at index
`i`, which reads `in[i]`, reads `cw_lut[idx]` and writes `out[i]`. -/
def cw_access_step (acc : cw_access) (i idx : Nat) : cw_access :=
  { iterations := acc.iterations + 1,
    in_reads := i :: acc.in_reads,
    lut_reads := idx :: acc.lut_reads,
    out_writes := i :: acc.out_writes }

/-- The table `cw_lut[256]` indexed by an integer: defined on `0..255` only. -/
def cw_lut_at (cw_lut : cw_lut_t) (idx : Nat) : Option cw_char_t :=
  if h : idx < 256 then some (cw_lut ⟨idx, h⟩) else none

/-- The loop `for(i = 0; i < len; i++)` of `cw_encode` run from index `i`
with a budget of loop tests, `len` being the length of `inp`, recording every
access. -/
def cw_encode_run (cw_lut : cw_lut_t) (inp : List uint8_t) :
    Nat → Nat → cw_out_t → cw_access → cw_outcome
  | 0, _, _, _ => cw_outcome.no_fuel
  | fuel + 1, i, out, acc =>
    if i < inp.length then
      match inp[i]? with
      | none => cw_outcome.in_out_of_range i
      | some b =>
        match cw_lut_at cw_lut b.val with
        | none => cw_outcome.lut_out_of_range b.val
        | some e =>
          let out : cw_out_t := fun k => if k = i then e else out k
          let acc : cw_access := cw_access_step acc i b.val
          if (out i).is_valid = 0 then cw_outcome.returned CW_ERROR out acc
          else cw_encode_run cw_lut inp fuel (i + 1) out acc
    else cw_outcome.returned CW_OK out acc

/-- The state of the access record before the first iteration. -/
def cw_access_none : cw_access :=
  { iterations := 0, in_reads := [], lut_reads := [], out_writes := [] }

/-! ## A decoder for single entries -/

/-- The position in the binary tree of the Morse code that the pulses of an
element sequence lead to: from the root 1, a dot goes to `2n`, a dash to
`2n + 1`; gaps are skipped. -/
def morse_index (l : List cw_symbol_t) : Nat :=
  l.foldl (fun n sym => match sym with
    | CW_DOT => 2 * n
    | CW_DASH => 2 * n + 1
    | _ => n) 1

/-- The characters at the positions 0..63 of the binary tree of the Morse
code, the space at the root. -/
def morse_tree : List (Option Char) :=
  [
    none, some ' ', some 'E', some 'T', some 'I', some 'A', some 'N', some 'M',
    some 'S', some 'U', some 'R', some 'W', some 'D', some 'K', some 'G', some 'O',
    some 'H', some 'V', some 'F', none, some 'L', none, some 'P', some 'J',
    some 'B', none, some 'C', some 'Y', some 'Z', some 'Q', none, none,
    some '5', some '4', none, some '3', none, none, none, some '2',
    none, none, none, none, none, none, none, some '1',
    some '6', none, none, none, none, none, none, none,
    some '7', none, none, none, some '8', none, some '9', some '0' ]

/-- A decoder for the elements in use of one entry; it serves to tell the
entries of distinct bytes apart. -/
def cw_decode_entry (l : List cw_symbol_t) : Option uint8_t :=
  (morse_tree.getD (morse_index l) none).map chr

/-! ## Lemmas on the encoder loop -/

theorem cw_init_eq_zero (cw_lut : cw_lut_t) : cw_init cw_lut = cw_init cw_lut_zero := rfl

theorem cw_encode_loop_status (cw_lut : cw_lut_t) (inp : List uint8_t) :
    ∀ (out : cw_out_t) (i : Nat),
      (cw_encode_loop cw_lut out i inp).1 = CW_OK ↔ ∀ b ∈ inp, (cw_lut b).is_valid ≠ 0 := by
  induction inp with
  | nil => intro out i; simp [cw_encode_loop]
  | cons b rest ih =>
    intro out i
    by_cases hb : (cw_lut b).is_valid = 0
    · simp [cw_encode_loop, hb]
    · simp [cw_encode_loop, hb, ih]

theorem cw_encode_loop_ok (cw_lut : cw_lut_t) (inp : List uint8_t) :
    ∀ (out : cw_out_t) (i : Nat), (∀ b ∈ inp, (cw_lut b).is_valid ≠ 0) →
      (∀ k b, inp[k]? = some b → (cw_encode_loop cw_lut out i inp).2 (i + k) = cw_lut b) ∧
      (∀ k, k < i ∨ i + inp.length ≤ k → (cw_encode_loop cw_lut out i inp).2 k = out k) := by
  induction inp with
  | nil => intro out i _; simp [cw_encode_loop]
  | cons b rest ih =>
    intro out i h
    have hb : (cw_lut b).is_valid ≠ 0 := h b (List.mem_cons_self _ _)
    have hrest : ∀ x ∈ rest, (cw_lut x).is_valid ≠ 0 :=
      fun x hx => h x (List.mem_cons_of_mem _ hx)
    obtain ⟨ih1, ih2⟩ := ih (fun k => if k = i then cw_lut b else out k) (i + 1) hrest
    have hloop : cw_encode_loop cw_lut out i (b :: rest)
        = cw_encode_loop cw_lut (fun k => if k = i then cw_lut b else out k) (i + 1) rest := by
      simp [cw_encode_loop, hb]
    rw [hloop]
    refine ⟨?_, ?_⟩
    · intro k x hk
      cases k with
      | zero =>
        simp at hk
        subst hk
        rw [ih2 (i + 0) (Or.inl (by omega))]
        simp
      | succ k =>
        simp at hk
        have := ih1 k x hk
        rw [show i + (k + 1) = i + 1 + k by omega]
        exact this
    · intro k hk
      simp only [List.length_cons] at hk
      rw [ih2 k (by omega)]
      have : k ≠ i := by omega
      simp [this]

theorem cw_encode_loop_error (cw_lut : cw_lut_t) (pre : List uint8_t) (b : uint8_t)
    (post : List uint8_t) :
    ∀ (out : cw_out_t) (i : Nat), (∀ x ∈ pre, (cw_lut x).is_valid ≠ 0) →
      (cw_lut b).is_valid = 0 →
      (cw_encode_loop cw_lut out i (pre ++ b :: post)).1 = CW_ERROR ∧
      (∀ k x, pre[k]? = some x →
        (cw_encode_loop cw_lut out i (pre ++ b :: post)).2 (i + k) = cw_lut x) ∧
      (cw_encode_loop cw_lut out i (pre ++ b :: post)).2 (i + pre.length) = cw_lut b ∧
      (∀ k, k < i ∨ i + pre.length < k →
        (cw_encode_loop cw_lut out i (pre ++ b :: post)).2 k = out k) := by
  induction pre with
  | nil =>
    intro out i _ hb
    have hloop : cw_encode_loop cw_lut out i ([] ++ b :: post)
        = (CW_ERROR, fun k => if k = i then cw_lut b else out k) := by
      simp [cw_encode_loop, hb]
    rw [hloop]
    refine ⟨rfl, ?_, ?_, ?_⟩
    · intro k x hk; simp at hk
    · simp
    · intro k hk
      have : k ≠ i := by simp at hk; omega
      simp [this]
  | cons a pre ih =>
    intro out i h hb
    have ha : (cw_lut a).is_valid ≠ 0 := h a (List.mem_cons_self _ _)
    have hpre : ∀ x ∈ pre, (cw_lut x).is_valid ≠ 0 :=
      fun x hx => h x (List.mem_cons_of_mem _ hx)
    obtain ⟨ih1, ih2, ih3, ih4⟩ :=
      ih (fun k => if k = i then cw_lut a else out k) (i + 1) hpre hb
    have hloop : cw_encode_loop cw_lut out i (a :: pre ++ b :: post)
        = cw_encode_loop cw_lut (fun k => if k = i then cw_lut a else out k) (i + 1)
            (pre ++ b :: post) := by
      simp [cw_encode_loop, ha]
    rw [hloop]
    refine ⟨ih1, ?_, ?_, ?_⟩
    · intro k x hk
      cases k with
      | zero =>
        simp at hk
        subst hk
        rw [ih4 (i + 0) (Or.inl (by omega))]
        simp
      | succ k =>
        simp at hk
        rw [show i + (k + 1) = i + 1 + k by omega]
        exact ih2 k x hk
    · rw [show i + (a :: pre).length = i + 1 + pre.length by simp; omega]
      exact ih3
    · intro k hk
      simp only [List.length_cons] at hk
      rw [ih4 k (by omega)]
      have : k ≠ i := by omega
      simp [this]

/-- The table built by `cw_init` marks exactly the supported bytes valid. -/
theorem cw_init_valid_iff (cw_lut : cw_lut_t) (b : uint8_t) :
    (cw_init cw_lut b).is_valid ≠ 0 ↔ is_supported b := by
  rw [cw_init_eq_zero]
  revert b
  decide

/-- The table built by `cw_init`, entry by entry, against the codes of the
specification. -/
theorem cw_init_zero_itu :
    ∀ b : uint8_t, is_letter_not_X b ∨ is_digit b →
      (cw_init cw_lut_zero b).is_valid = 1 ∧
      (itu_code b).map itu_elements = some (cw_init cw_lut_zero b).used := by
  decide

/-- Entries of unsupported bytes are left as `memset` made them. -/
theorem cw_init_zero_unsupported :
    ∀ b : uint8_t, ¬ is_supported b → cw_init cw_lut_zero b = cw_char_zero := by
  decide

/-- The encoder on a one-byte input. -/
theorem cw_encode_singleton (cw_lut : cw_lut_t) (out : cw_out_t) (b : uint8_t) :
    (cw_encode cw_lut out [b]).1 = (if (cw_lut b).is_valid = 0 then CW_ERROR else CW_OK) ∧
    (cw_encode cw_lut out [b]).2 0 = cw_lut b ∧
    ∀ k, k ≠ 0 → (cw_encode cw_lut out [b]).2 k = out k := by
  by_cases hb : (cw_lut b).is_valid = 0
  · simp [cw_encode, cw_encode_loop, hb]
    intro k hk; simp [hk]
  · simp [cw_encode, cw_encode_loop, hb]
    intro k hk; simp [hk]

/-! ## The claims -/

/-- C1: after `cw_init` (whatever the table held before), for every byte `b`
that is an uppercase letter other than `X` or a digit, the entry of `b` is
valid and its elements in use are the code the specification lists for `b`,
written as its pulses in order with one symbol gap between consecutive pulses
and one character gap after the last; and `cw_encode` on the one-byte input
`[b]` returns `CW_OK`, writes that entry at output index 0 and leaves every
other output index untouched. -/
theorem C1_cw_init_itu_codes (cw_lut : cw_lut_t) (out : cw_out_t) (b : uint8_t)
    (hb : is_letter_not_X b ∨ is_digit b) :
    (cw_init cw_lut b).is_valid = 1 ∧
    (itu_code b).map itu_elements = some (cw_init cw_lut b).used ∧
    (cw_encode (cw_init cw_lut) out [b]).1 = CW_OK ∧
    (cw_encode (cw_init cw_lut) out [b]).2 0 = cw_init cw_lut b ∧
    ∀ k, k ≠ 0 → (cw_encode (cw_init cw_lut) out [b]).2 k = out k := by
  obtain ⟨hv, hcode⟩ := cw_init_zero_itu b hb
  obtain ⟨h1, h2, h3⟩ := cw_encode_singleton (cw_init cw_lut) out b
  rw [cw_init_eq_zero cw_lut] at h1 h2 h3 ⊢
  refine ⟨hv, hcode, ?_, h2, h3⟩
  rw [h1, hv]
  rfl

/-- C1 at the byte `S` on the zero-initialised table and output buffer. -/
theorem C1_cw_init_itu_codes_witness :
    (is_letter_not_X (chr 'S') ∨ is_digit (chr 'S')) ∧
    ((cw_init cw_lut_zero (chr 'S')).is_valid = 1 ∧
     (itu_code (chr 'S')).map itu_elements = some (cw_init cw_lut_zero (chr 'S')).used ∧
     (cw_encode (cw_init cw_lut_zero) (fun _ => cw_char_zero) [chr 'S']).1 = CW_OK ∧
     (cw_encode (cw_init cw_lut_zero) (fun _ => cw_char_zero) [chr 'S']).2 0
       = cw_init cw_lut_zero (chr 'S') ∧
     ∀ k, k ≠ 0 →
       (cw_encode (cw_init cw_lut_zero) (fun _ => cw_char_zero) [chr 'S']).2 k
         = (fun _ => cw_char_zero) k) :=
  ⟨by decide, C1_cw_init_itu_codes cw_lut_zero (fun _ => cw_char_zero) (chr 'S') (by decide)⟩

/-- C2: after `cw_init`, for every input byte sequence `cw_encode` returns
`CW_OK` if and only if every input byte is in the supported set (`A`-`Z`
except `X`, `0`-`9`, space), and returns `CW_ERROR` otherwise; in particular
on every single byte outside that set it returns `CW_ERROR`, and `X`, the
lowercase letters and every byte below space are outside it. -/
theorem C2_encode_ok_iff_supported (cw_lut : cw_lut_t) (out : cw_out_t) :
    (∀ inp : List uint8_t,
      (cw_encode (cw_init cw_lut) out inp).1 = CW_OK ↔ ∀ b ∈ inp, is_supported b) ∧
    (∀ inp : List uint8_t, (¬ ∀ b ∈ inp, is_supported b) →
      (cw_encode (cw_init cw_lut) out inp).1 = CW_ERROR) ∧
    (∀ b : uint8_t, ¬ is_supported b →
      (cw_encode (cw_init cw_lut) out [b]).1 = CW_ERROR) ∧
    ¬ is_supported (chr 'X') ∧
    (∀ b : uint8_t, chr 'a' ≤ b ∧ b ≤ chr 'z' → ¬ is_supported b) ∧
    (∀ b : uint8_t, b < chr ' ' → ¬ is_supported b) := by
  have hiff : ∀ inp : List uint8_t,
      (cw_encode (cw_init cw_lut) out inp).1 = CW_OK ↔ ∀ b ∈ inp, is_supported b := by
    intro inp
    unfold cw_encode
    rw [cw_encode_loop_status]
    constructor
    · intro h b hb; exact (cw_init_valid_iff cw_lut b).1 (h b hb)
    · intro h b hb; exact (cw_init_valid_iff cw_lut b).2 (h b hb)
  have herr : ∀ inp : List uint8_t, (¬ ∀ b ∈ inp, is_supported b) →
      (cw_encode (cw_init cw_lut) out inp).1 = CW_ERROR := by
    intro inp h
    have hne : (cw_encode (cw_init cw_lut) out inp).1 ≠ CW_OK :=
      fun hok => h ((hiff inp).1 hok)
    cases hst : (cw_encode (cw_init cw_lut) out inp).1 with
    | CW_OK => exact absurd hst hne
    | CW_ERROR => rfl
  have hX : ¬ is_supported (chr 'X') := by decide
  have hlower : ∀ b : uint8_t, chr 'a' ≤ b ∧ b ≤ chr 'z' → ¬ is_supported b := by
    decide
  have hctl : ∀ b : uint8_t, b < chr ' ' → ¬ is_supported b := by
    decide
  refine ⟨hiff, herr, ?_, hX, hlower, hctl⟩
  intro b hb
  apply herr
  intro h
  exact hb (h b (List.mem_singleton_self b))

/-- C2 at the bytes `X`, `s`, `?` and NUL, and at the input `S`, `o`, `S`. -/
theorem C2_encode_ok_iff_supported_witness :
    (cw_encode (cw_init cw_lut_zero) (fun _ => cw_char_zero) [chr 'X']).1 = CW_ERROR ∧
    (cw_encode (cw_init cw_lut_zero) (fun _ => cw_char_zero) [chr 's']).1 = CW_ERROR ∧
    (cw_encode (cw_init cw_lut_zero) (fun _ => cw_char_zero) [chr '?']).1 = CW_ERROR ∧
    (cw_encode (cw_init cw_lut_zero) (fun _ => cw_char_zero) [0]).1 = CW_ERROR ∧
    (cw_encode (cw_init cw_lut_zero) (fun _ => cw_char_zero)
      [chr 'S', chr 'o', chr 'S']).1 = CW_ERROR :=
  ⟨(C2_encode_ok_iff_supported cw_lut_zero (fun _ => cw_char_zero)).2.2.1 (chr 'X') (by decide),
   (C2_encode_ok_iff_supported cw_lut_zero (fun _ => cw_char_zero)).2.2.1 (chr 's') (by decide),
   (C2_encode_ok_iff_supported cw_lut_zero (fun _ => cw_char_zero)).2.2.1 (chr '?') (by decide),
   (C2_encode_ok_iff_supported cw_lut_zero (fun _ => cw_char_zero)).2.2.1 0 (by decide),
   (C2_encode_ok_iff_supported cw_lut_zero (fun _ => cw_char_zero)).2.1
     [chr 'S', chr 'o', chr 'S'] (by decide)⟩

/-- The entries `cw_init` builds for `S`, `O`, `E`, `0` and space. -/
theorem cw_init_zero_samples :
    (cw_init cw_lut_zero (chr 'S')).used
      = [CW_DOT, CW_SYMBOL_DELIM, CW_DOT, CW_SYMBOL_DELIM, CW_DOT, CW_CHAR_DELIM] ∧
    (cw_init cw_lut_zero (chr 'O')).used
      = [CW_DASH, CW_SYMBOL_DELIM, CW_DASH, CW_SYMBOL_DELIM, CW_DASH, CW_CHAR_DELIM] ∧
    (cw_init cw_lut_zero (chr 'E')).used = [CW_DOT, CW_CHAR_DELIM] ∧
    (cw_init cw_lut_zero (chr '0')).used
      = [CW_DASH, CW_SYMBOL_DELIM, CW_DASH, CW_SYMBOL_DELIM, CW_DASH, CW_SYMBOL_DELIM,
         CW_DASH, CW_SYMBOL_DELIM, CW_DASH, CW_CHAR_DELIM] ∧
    (cw_init cw_lut_zero (chr ' ')).used = [CW_WORD_DELIM] ∧
    (cw_init cw_lut_zero (chr ' ')).s_num = 1 := by
  decide

/-- C3: for every table, output buffer and input of length `n` whose bytes
all have valid table entries, `cw_encode` returns `CW_OK`, output entry `i`
equals the table entry of input byte `i` for every `i < n`, and no output
index from `n` on is written; on the empty input it returns `CW_OK` and
leaves the output buffer as it was. After `cw_init`, the input `S`, `O`, `S`
is encoded with `CW_OK` and the elements in use of the three entries
concatenate to `... --- ...` with a character gap after each letter. -/
theorem C3_encode_valid_input :
    (∀ (cw_lut : cw_lut_t) (out : cw_out_t) (inp : List uint8_t),
      (∀ b ∈ inp, (cw_lut b).is_valid ≠ 0) →
        (cw_encode cw_lut out inp).1 = CW_OK ∧
        (∀ i b, inp[i]? = some b → (cw_encode cw_lut out inp).2 i = cw_lut b) ∧
        (∀ i, inp.length ≤ i → (cw_encode cw_lut out inp).2 i = out i)) ∧
    (∀ (cw_lut : cw_lut_t) (out : cw_out_t), cw_encode cw_lut out [] = (CW_OK, out)) ∧
    (∀ (cw_lut : cw_lut_t) (out : cw_out_t),
      (cw_encode (cw_init cw_lut) out [chr 'S', chr 'O', chr 'S']).1 = CW_OK ∧
      ((cw_encode (cw_init cw_lut) out [chr 'S', chr 'O', chr 'S']).2 0).used
        ++ ((cw_encode (cw_init cw_lut) out [chr 'S', chr 'O', chr 'S']).2 1).used
        ++ ((cw_encode (cw_init cw_lut) out [chr 'S', chr 'O', chr 'S']).2 2).used
        = [CW_DOT, CW_SYMBOL_DELIM, CW_DOT, CW_SYMBOL_DELIM, CW_DOT, CW_CHAR_DELIM,
           CW_DASH, CW_SYMBOL_DELIM, CW_DASH, CW_SYMBOL_DELIM, CW_DASH, CW_CHAR_DELIM,
           CW_DOT, CW_SYMBOL_DELIM, CW_DOT, CW_SYMBOL_DELIM, CW_DOT, CW_CHAR_DELIM]) := by
  have hgen : ∀ (cw_lut : cw_lut_t) (out : cw_out_t) (inp : List uint8_t),
      (∀ b ∈ inp, (cw_lut b).is_valid ≠ 0) →
        (cw_encode cw_lut out inp).1 = CW_OK ∧
        (∀ i b, inp[i]? = some b → (cw_encode cw_lut out inp).2 i = cw_lut b) ∧
        (∀ i, inp.length ≤ i → (cw_encode cw_lut out inp).2 i = out i) := by
    intro cw_lut out inp h
    obtain ⟨h1, h2⟩ := cw_encode_loop_ok cw_lut inp out 0 h
    refine ⟨(cw_encode_loop_status cw_lut inp out 0).2 h, ?_, ?_⟩
    · intro i b hi
      have := h1 i b hi
      rwa [Nat.zero_add] at this
    · intro i hi
      exact h2 i (Or.inr (by omega))
  refine ⟨hgen, fun _ _ => rfl, ?_⟩
  intro cw_lut out
  have hvalid : ∀ b ∈ [chr 'S', chr 'O', chr 'S'], (cw_init cw_lut b).is_valid ≠ 0 := by
    intro b hb
    rw [cw_init_valid_iff]
    revert b
    decide
  obtain ⟨h1, h2, -⟩ := hgen (cw_init cw_lut) out [chr 'S', chr 'O', chr 'S'] hvalid
  refine ⟨h1, ?_⟩
  rw [h2 0 (chr 'S') rfl, h2 1 (chr 'O') rfl, h2 2 (chr 'S') rfl, cw_init_eq_zero cw_lut,
    cw_init_zero_samples.1, cw_init_zero_samples.2.1]
  rfl

/-- C3 at the table built by `cw_init` and the input `S`, `O`, `S`. -/
theorem C3_encode_valid_input_witness :
    (∀ b ∈ [chr 'S', chr 'O', chr 'S'], (cw_init cw_lut_zero b).is_valid ≠ 0) ∧
    ((cw_encode (cw_init cw_lut_zero) (fun _ => cw_char_zero) [chr 'S', chr 'O', chr 'S']).1
        = CW_OK ∧
      (∀ i b, [chr 'S', chr 'O', chr 'S'][i]? = some b →
        (cw_encode (cw_init cw_lut_zero) (fun _ => cw_char_zero)
          [chr 'S', chr 'O', chr 'S']).2 i = cw_init cw_lut_zero b) ∧
      (∀ i, [chr 'S', chr 'O', chr 'S'].length ≤ i →
        (cw_encode (cw_init cw_lut_zero) (fun _ => cw_char_zero)
          [chr 'S', chr 'O', chr 'S']).2 i = (fun _ => cw_char_zero) i)) :=
  ⟨by decide,
   C3_encode_valid_input.1 (cw_init cw_lut_zero) (fun _ => cw_char_zero)
     [chr 'S', chr 'O', chr 'S'] (by decide)⟩

/-- C4: after `cw_init` the table does not depend on what it held before;
the entry of a byte has its validity flag set (to 1) if and only if the byte
is an uppercase letter other than `X`, a digit or the space, which makes 25
letters, 10 digits and 36 valid bytes in all; every other byte, `X` and the
lowercase letters among them, has the all-zero entry `memset` left: validity
0, element count 0 and no element written. -/
theorem C4_table_fully_determined (cw_lut : cw_lut_t) :
    cw_init cw_lut = cw_init cw_lut_zero ∧
    (∀ b : uint8_t, (cw_init cw_lut b).is_valid ≠ 0 ↔ is_supported b) ∧
    (∀ b : uint8_t, is_supported b → (cw_init cw_lut b).is_valid = 1) ∧
    ((List.finRange 256).filter (fun b => decide (is_letter_not_X b))).length = 25 ∧
    ((List.finRange 256).filter (fun b => decide (is_digit b))).length = 10 ∧
    ((List.finRange 256).filter
      (fun b => decide ((cw_init cw_lut b).is_valid ≠ 0))).length = 36 ∧
    (∀ b : uint8_t, ¬ is_supported b →
      cw_init cw_lut b = cw_char_zero ∧
      (cw_init cw_lut b).is_valid = 0 ∧ (cw_init cw_lut b).s_num = 0 ∧
      (cw_init cw_lut b).used = [] ∧
      (cw_init cw_lut b).s = List.replicate CW_MAX_SYMBOLS cw_symbol_zero) ∧
    cw_init cw_lut (chr 'X') = cw_char_zero ∧
    (∀ b : uint8_t, chr 'a' ≤ b ∧ b ≤ chr 'z' → cw_init cw_lut b = cw_char_zero) := by
  rw [cw_init_eq_zero cw_lut]
  refine ⟨rfl, fun b => cw_init_valid_iff cw_lut_zero b, ?_, ?_, ?_, ?_, ?_, ?_, ?_⟩
  · decide
  · decide
  · decide
  · decide
  · intro b hb
    rw [cw_init_zero_unsupported b hb]
    exact ⟨rfl, rfl, rfl, rfl, rfl⟩
  · decide
  · decide

/-- C5: for every table, output buffer and input in which byte `k` is the
first one without a valid table entry, `cw_encode` returns `CW_ERROR`, the
output entries at the indices up to and including `k` are the table entries
of the corresponding input bytes (the one at `k` being the invalid entry),
and every output entry above `k` is as it was before the call. -/
theorem C5_encode_first_invalid (cw_lut : cw_lut_t) (out : cw_out_t) (inp : List uint8_t)
    (k : Nat) (bad : uint8_t) (hk : inp[k]? = some bad) (hbad : (cw_lut bad).is_valid = 0)
    (hfirst : ∀ j b, j < k → inp[j]? = some b → (cw_lut b).is_valid ≠ 0) :
    (cw_encode cw_lut out inp).1 = CW_ERROR ∧
    (∀ i b, i < k → inp[i]? = some b → (cw_encode cw_lut out inp).2 i = cw_lut b) ∧
    (cw_encode cw_lut out inp).2 k = cw_lut bad ∧
    (∀ i, k < i → (cw_encode cw_lut out inp).2 i = out i) := by
  have hklt : k < inp.length := by
    rcases Nat.lt_or_ge k inp.length with h | h
    · exact h
    · rw [List.getElem?_eq_none h] at hk; cases hk
  have hget : inp[k] = bad := by
    rw [List.getElem?_eq_getElem hklt] at hk
    exact Option.some.inj hk
  have hsplit : inp = inp.take k ++ bad :: inp.drop (k + 1) := by
    rw [← hget, ← List.drop_eq_getElem_cons hklt, List.take_append_drop]
  have hlen : (inp.take k).length = k := by
    rw [List.length_take]; omega
  have hpre : ∀ x ∈ inp.take k, (cw_lut x).is_valid ≠ 0 := by
    intro x hx
    obtain ⟨j, hj, hjx⟩ := List.getElem_of_mem hx
    have hjk : j < k := by rw [hlen] at hj; exact hj
    apply hfirst j x hjk
    rw [List.getElem_take] at hjx
    rw [List.getElem?_eq_getElem (by omega), hjx]
  obtain ⟨h1, h2, h3, h4⟩ :=
    cw_encode_loop_error cw_lut (inp.take k) bad (inp.drop (k + 1)) out 0 hpre hbad
  rw [← hsplit] at h1 h2 h3 h4
  rw [hlen] at h3 h4
  unfold cw_encode
  refine ⟨h1, ?_, ?_, ?_⟩
  · intro i b hi hib
    have := h2 i b (by rw [List.getElem?_take_of_lt hi]; exact hib)
    rwa [Nat.zero_add] at this
  · rwa [Nat.zero_add] at h3
  · intro i hi
    exact h4 i (Or.inr (by omega))

/-- C5 at the table built by `cw_init` and the input `S`, `x`, `S`, whose
first byte without a valid entry is at index 1. -/
theorem C5_encode_first_invalid_witness :
    ([chr 'S', chr 'x', chr 'S'][1]? = some (chr 'x') ∧
     (cw_init cw_lut_zero (chr 'x')).is_valid = 0 ∧
     (∀ j b, j < 1 → [chr 'S', chr 'x', chr 'S'][j]? = some b →
       (cw_init cw_lut_zero b).is_valid ≠ 0)) ∧
    ((cw_encode (cw_init cw_lut_zero) (fun _ => cw_char_zero)
        [chr 'S', chr 'x', chr 'S']).1 = CW_ERROR ∧
     (∀ i b, i < 1 → [chr 'S', chr 'x', chr 'S'][i]? = some b →
       (cw_encode (cw_init cw_lut_zero) (fun _ => cw_char_zero)
         [chr 'S', chr 'x', chr 'S']).2 i = cw_init cw_lut_zero b) ∧
     (cw_encode (cw_init cw_lut_zero) (fun _ => cw_char_zero)
       [chr 'S', chr 'x', chr 'S']).2 1 = cw_init cw_lut_zero (chr 'x') ∧
     (∀ i, 1 < i →
       (cw_encode (cw_init cw_lut_zero) (fun _ => cw_char_zero)
         [chr 'S', chr 'x', chr 'S']).2 i = (fun _ => cw_char_zero) i)) :=
  have h1 : [chr 'S', chr 'x', chr 'S'][1]? = some (chr 'x') := rfl
  have h2 : (cw_init cw_lut_zero (chr 'x')).is_valid = 0 := by decide
  have h3 : ∀ j b, j < 1 → [chr 'S', chr 'x', chr 'S'][j]? = some b →
      (cw_init cw_lut_zero b).is_valid ≠ 0 := by
    intro j b hj hb
    have hj0 : j = 0 := by omega
    subst hj0
    have hbS : b = chr 'S' := by simpa using hb.symm
    subst hbS
    decide
  ⟨⟨h1, h2, h3⟩,
   C5_encode_first_invalid (cw_init cw_lut_zero) (fun _ => cw_char_zero)
     [chr 'S', chr 'x', chr 'S'] 1 (chr 'x') h1 h2 h3⟩

/-- The gaps of the entries `cw_init` builds: a valid entry other than the
one of space holds one character gap, at its end, and no word gap. -/
theorem cw_init_zero_gaps :
    ∀ b : uint8_t, (cw_init cw_lut_zero b).is_valid ≠ 0 → b ≠ chr ' ' →
      (cw_init cw_lut_zero b).used.count CW_CHAR_DELIM = 1 ∧
      (cw_init cw_lut_zero b).used.getLast? = some CW_CHAR_DELIM ∧
      CW_WORD_DELIM ∉ (cw_init cw_lut_zero b).used := by
  decide

/-- C6: after `cw_init`, the elements in use of every valid entry other than
the one of space contain the character gap exactly once, as their last
element, and contain no word gap; the entry of space has element count 1 and
its only element is the word gap. Hence for every input whose bytes are all
supported and whose last byte is a space, `cw_encode` returns `CW_OK` and the
last output entry consists of the word gap alone. -/
theorem C6_gap_structure (cw_lut : cw_lut_t) :
    (∀ b : uint8_t, (cw_init cw_lut b).is_valid ≠ 0 → b ≠ chr ' ' →
      (cw_init cw_lut b).used.count CW_CHAR_DELIM = 1 ∧
      (cw_init cw_lut b).used.getLast? = some CW_CHAR_DELIM ∧
      CW_WORD_DELIM ∉ (cw_init cw_lut b).used) ∧
    ((cw_init cw_lut (chr ' ')).is_valid = 1 ∧
      (cw_init cw_lut (chr ' ')).s_num = 1 ∧
      (cw_init cw_lut (chr ' ')).used = [CW_WORD_DELIM]) ∧
    (∀ (out : cw_out_t) (inp : List uint8_t),
      (∀ b ∈ inp, is_supported b) → inp.getLast? = some (chr ' ') →
        (cw_encode (cw_init cw_lut) out inp).1 = CW_OK ∧
        ((cw_encode (cw_init cw_lut) out inp).2 (inp.length - 1)).used = [CW_WORD_DELIM]) := by
  refine ⟨?_, ?_, ?_⟩
  · rw [cw_init_eq_zero cw_lut]
    exact cw_init_zero_gaps
  · rw [cw_init_eq_zero cw_lut]
    decide
  · intro out inp hsup hlast
    have hvalid : ∀ b ∈ inp, (cw_init cw_lut b).is_valid ≠ 0 :=
      fun b hb => (cw_init_valid_iff cw_lut b).2 (hsup b hb)
    obtain ⟨h1, -⟩ := cw_encode_loop_ok (cw_init cw_lut) inp out 0 hvalid
    refine ⟨(cw_encode_loop_status (cw_init cw_lut) inp out 0).2 hvalid, ?_⟩
    rw [List.getLast?_eq_getElem?] at hlast
    have := h1 (inp.length - 1) (chr ' ') hlast
    rw [Nat.zero_add] at this
    unfold cw_encode
    rw [this, cw_init_eq_zero cw_lut]
    decide

/-- C6 at the input `S`, `O`, `S`, space. -/
theorem C6_gap_structure_witness :
    ((∀ b ∈ [chr 'S', chr 'O', chr 'S', chr ' '], is_supported b) ∧
      [chr 'S', chr 'O', chr 'S', chr ' '].getLast? = some (chr ' ')) ∧
    ((cw_encode (cw_init cw_lut_zero) (fun _ => cw_char_zero)
        [chr 'S', chr 'O', chr 'S', chr ' ']).1 = CW_OK ∧
      ((cw_encode (cw_init cw_lut_zero) (fun _ => cw_char_zero)
        [chr 'S', chr 'O', chr 'S', chr ' ']).2
          ([chr 'S', chr 'O', chr 'S', chr ' '].length - 1)).used = [CW_WORD_DELIM]) :=
  ⟨⟨by decide, rfl⟩,
   (C6_gap_structure cw_lut_zero).2.2 (fun _ => cw_char_zero)
     [chr 'S', chr 'O', chr 'S', chr ' '] (by decide) rfl⟩

/-- C7: `cw_init` does not depend on the prior contents of the table: any two
prior tables give the same table, running `cw_init` twice gives the table
that running it once gives, and `cw_encode` then returns the same code and
the same output buffer for every input. -/
theorem C7_cw_init_idempotent (cw_lut cw_lut2 : cw_lut_t) :
    cw_init cw_lut = cw_init cw_lut2 ∧
    cw_init (cw_init cw_lut) = cw_init cw_lut ∧
    (∀ (out : cw_out_t) (inp : List uint8_t),
      cw_encode (cw_init (cw_init cw_lut)) out inp = cw_encode (cw_init cw_lut) out inp) :=
  ⟨rfl, rfl, fun _ _ => rfl⟩

/-- C8: the element durations are dot 200 ms, dash 600 ms (3 dots), symbol
gap 200 ms (1 dot), character gap 600 ms (3 dots), word gap 800 ms (4 dots)
and terminator 0 ms; and for every supported byte `c` other than space the
encoding of `c` followed by a space succeeds, the entry of `c` ends with the
character gap, the entry after it is the word gap alone, so the element
stream ends with character gap, word gap, whose durations sum to 1400 ms,
seven times the dot. -/
theorem C8_durations_and_word_gap :
    (cw_duration CW_DOT = 200 ∧
      cw_duration CW_DASH = 600 ∧ cw_duration CW_DASH = 3 * cw_duration CW_DOT ∧
      cw_duration CW_SYMBOL_DELIM = 200 ∧
      cw_duration CW_SYMBOL_DELIM = 1 * cw_duration CW_DOT ∧
      cw_duration CW_CHAR_DELIM = 600 ∧ cw_duration CW_CHAR_DELIM = 3 * cw_duration CW_DOT ∧
      cw_duration CW_WORD_DELIM = 800 ∧ cw_duration CW_WORD_DELIM = 4 * cw_duration CW_DOT ∧
      cw_duration CW_INVALID = 0) ∧
    (∀ (cw_lut : cw_lut_t) (out : cw_out_t) (c : uint8_t), is_supported c → c ≠ chr ' ' →
      (cw_encode (cw_init cw_lut) out [c, chr ' ']).1 = CW_OK ∧
      ((cw_encode (cw_init cw_lut) out [c, chr ' ']).2 0).used.getLast? = some CW_CHAR_DELIM ∧
      ((cw_encode (cw_init cw_lut) out [c, chr ' ']).2 1).used = [CW_WORD_DELIM] ∧
      [CW_CHAR_DELIM, CW_WORD_DELIM] <:+
        ((cw_encode (cw_init cw_lut) out [c, chr ' ']).2 0).used
          ++ ((cw_encode (cw_init cw_lut) out [c, chr ' ']).2 1).used) ∧
    ((cw_duration CW_CHAR_DELIM + cw_duration CW_WORD_DELIM) % 2 ^ 32 = 1400 ∧
      1400 = 7 * cw_duration CW_DOT) := by
  refine ⟨by decide, ?_, by decide⟩
  intro cw_lut out c hc hsp
  have hcv : (cw_init cw_lut c).is_valid ≠ 0 := (cw_init_valid_iff cw_lut c).2 hc
  have hvalid : ∀ b ∈ [c, chr ' '], (cw_init cw_lut b).is_valid ≠ 0 := by
    intro b hb
    rw [cw_init_valid_iff]
    rcases List.mem_pair.1 hb with h | h
    · rw [h]; exact hc
    · rw [h]; decide
  obtain ⟨h1, -⟩ := cw_encode_loop_ok (cw_init cw_lut) [c, chr ' '] out 0 hvalid
  have h0 := h1 0 c rfl
  have h1 := h1 1 (chr ' ') rfl
  rw [Nat.zero_add] at h0 h1
  have hsp1 : (cw_init cw_lut (chr ' ')).used = [CW_WORD_DELIM] := by
    rw [cw_init_eq_zero cw_lut]; decide
  rw [cw_init_eq_zero cw_lut] at hcv
  obtain ⟨-, hlast, -⟩ := cw_init_zero_gaps c hcv hsp
  rw [← cw_init_eq_zero cw_lut] at hlast
  unfold cw_encode
  rw [h0, h1, hsp1]
  refine ⟨(cw_encode_loop_status (cw_init cw_lut) [c, chr ' '] out 0).2 hvalid, hlast, rfl, ?_⟩
  obtain ⟨front, hfront⟩ : ∃ front, (cw_init cw_lut c).used = front ++ [CW_CHAR_DELIM] := by
    rcases List.eq_nil_or_concat (cw_init cw_lut c).used with hnil | ⟨front, x, hx⟩
    · rw [hnil] at hlast; cases hlast
    · rw [hx, List.concat_eq_append, List.getLast?_concat] at hlast
      exact ⟨front, by rw [hx, Option.some.inj hlast, List.concat_eq_append]⟩
  rw [hfront, List.append_assoc]
  exact List.suffix_append front _

/-- C8 at the byte `S`. -/
theorem C8_durations_and_word_gap_witness :
    (is_supported (chr 'S') ∧ chr 'S' ≠ chr ' ') ∧
    ((cw_encode (cw_init cw_lut_zero) (fun _ => cw_char_zero) [chr 'S', chr ' ']).1 = CW_OK ∧
      ((cw_encode (cw_init cw_lut_zero) (fun _ => cw_char_zero)
        [chr 'S', chr ' ']).2 0).used.getLast? = some CW_CHAR_DELIM ∧
      ((cw_encode (cw_init cw_lut_zero) (fun _ => cw_char_zero)
        [chr 'S', chr ' ']).2 1).used = [CW_WORD_DELIM] ∧
      [CW_CHAR_DELIM, CW_WORD_DELIM] <:+
        ((cw_encode (cw_init cw_lut_zero) (fun _ => cw_char_zero)
          [chr 'S', chr ' ']).2 0).used
          ++ ((cw_encode (cw_init cw_lut_zero) (fun _ => cw_char_zero)
            [chr 'S', chr ' ']).2 1).used) :=
  ⟨⟨by decide, by decide⟩,
   C8_durations_and_word_gap.2.1 cw_lut_zero (fun _ => cw_char_zero) (chr 'S')
     (by decide) (by decide)⟩

/-- C9: after `cw_init`, the durations of the elements in use of the entry
of `S` sum to 3 x 200 + 2 x 200 + 600 = 1600 ms and those of the entry of `E`
to 200 + 600 = 800 ms. -/
theorem C9_duration_S_and_E (cw_lut : cw_lut_t) :
    cw_char_duration (cw_init cw_lut (chr 'S')) = 1600 ∧
    cw_char_duration (cw_init cw_lut (chr 'S'))
      = 3 * cw_duration CW_DOT + 2 * cw_duration CW_SYMBOL_DELIM + cw_duration CW_CHAR_DELIM ∧
    cw_char_duration (cw_init cw_lut (chr 'E')) = 800 ∧
    cw_char_duration (cw_init cw_lut (chr 'E'))
      = cw_duration CW_DOT + cw_duration CW_CHAR_DELIM := by
  rw [cw_init_eq_zero cw_lut]
  decide

/-- C10, as stated, fails: the durations of the elements in use of the entry
of the digit `0` do not sum to 2400 ms. -/
theorem C10_duration_zero_counterexample :
    cw_char_duration (cw_init cw_lut_zero (chr '0')) ≠ 2400 := by
  decide

/-- C10, amended: after `cw_init`, the entry of the digit `0` holds five
dashes, four symbol gaps and one character gap, and the durations of its
elements in use sum to 5 x 600 + 4 x 200 + 600 = 4400 ms. -/
theorem C10_duration_zero (cw_lut : cw_lut_t) :
    (cw_init cw_lut (chr '0')).used.count CW_DASH = 5 ∧
    (cw_init cw_lut (chr '0')).used.count CW_DOT = 0 ∧
    (cw_init cw_lut (chr '0')).used.count CW_SYMBOL_DELIM = 4 ∧
    (cw_init cw_lut (chr '0')).used.count CW_CHAR_DELIM = 1 ∧
    (cw_init cw_lut (chr '0')).used.length = 10 ∧
    cw_char_duration (cw_init cw_lut (chr '0'))
      = 5 * cw_duration CW_DASH + 4 * cw_duration CW_SYMBOL_DELIM
          + cw_duration CW_CHAR_DELIM ∧
    cw_char_duration (cw_init cw_lut (chr '0')) = 5 * 600 + 4 * 200 + 600 ∧
    cw_char_duration (cw_init cw_lut (chr '0')) = 4400 := by
  rw [cw_init_eq_zero cw_lut]
  decide

/-! ## Further lemmas on the encoder loop -/

/-- The loop on the memory keeps the table and does to `out` what
`cw_encode_loop` does. -/
theorem cw_encode_mem_loop_eq (inp : List uint8_t) :
    ∀ (m : cw_memory) (i : Nat),
      (cw_encode_mem_loop m i inp).2.cw_lut = m.cw_lut ∧
      (cw_encode_mem_loop m i inp).1 = (cw_encode_loop m.cw_lut m.out i inp).1 ∧
      (cw_encode_mem_loop m i inp).2.out = (cw_encode_loop m.cw_lut m.out i inp).2 := by
  induction inp with
  | nil => intro m i; exact ⟨rfl, rfl, rfl⟩
  | cons b rest ih =>
    intro m i
    by_cases hb : (m.cw_lut b).is_valid = 0
    · simp [cw_encode_mem_loop, cw_encode_loop, assign_out, hb]
    · obtain ⟨h1, h2, h3⟩ := ih (assign_out i b m) (i + 1)
      simp only [cw_encode_mem_loop, cw_encode_loop, assign_out, if_true, hb, if_false]
        at h1 h2 h3 ⊢
      exact ⟨h1, h2, h3⟩

/-- Two runs of the loop with the same table and input, on any two output
buffers: the same return code, the same entries at the indices written, and
each buffer as it was elsewhere. -/
theorem cw_encode_loop_frame (cw_lut : cw_lut_t) (inp : List uint8_t) :
    ∀ (out1 out2 : cw_out_t) (i : Nat),
      (cw_encode_loop cw_lut out1 i inp).1 = (cw_encode_loop cw_lut out2 i inp).1 ∧
      ∃ n, n ≤ inp.length ∧
        (∀ k, i ≤ k → k < i + n →
          (cw_encode_loop cw_lut out1 i inp).2 k = (cw_encode_loop cw_lut out2 i inp).2 k) ∧
        (∀ k, k < i ∨ i + n ≤ k →
          (cw_encode_loop cw_lut out1 i inp).2 k = out1 k ∧
          (cw_encode_loop cw_lut out2 i inp).2 k = out2 k) := by
  induction inp with
  | nil =>
    intro out1 out2 i
    refine ⟨rfl, 0, Nat.le_refl _, ?_, ?_⟩
    · intro k h1 h2; omega
    · intro k _; exact ⟨rfl, rfl⟩
  | cons b rest ih =>
    intro out1 out2 i
    by_cases hb : (cw_lut b).is_valid = 0
    · have e1 : ∀ out : cw_out_t, cw_encode_loop cw_lut out i (b :: rest)
          = (CW_ERROR, fun k => if k = i then cw_lut b else out k) := by
        intro out; simp [cw_encode_loop, hb]
      rw [e1 out1, e1 out2]
      refine ⟨rfl, 1, by simp, ?_, ?_⟩
      · intro k h1 h2
        have : k = i := by omega
        simp [this]
      · intro k hk
        have : k ≠ i := by omega
        simp [this]
    · have e1 : ∀ out : cw_out_t, cw_encode_loop cw_lut out i (b :: rest)
          = cw_encode_loop cw_lut (fun k => if k = i then cw_lut b else out k) (i + 1) rest := by
        intro out; simp [cw_encode_loop, hb]
      rw [e1 out1, e1 out2]
      obtain ⟨hs, n, hn, hw, hu⟩ :=
        ih (fun k => if k = i then cw_lut b else out1 k)
          (fun k => if k = i then cw_lut b else out2 k) (i + 1)
      refine ⟨hs, n + 1, by simp; omega, ?_, ?_⟩
      · intro k h1 h2
        by_cases hki : k = i
        · obtain ⟨ha, hb2⟩ := hu k (Or.inl (by omega))
          rw [ha, hb2]; simp [hki]
        · exact hw k (by omega) (by omega)
      · intro k hk
        have hki : k ≠ i := by omega
        obtain ⟨ha, hb2⟩ := hu k (by omega)
        rw [ha, hb2]; simp [hki]

/-- The loop on a concatenated input: the loop on the first part and, if
that returned `CW_OK`, the loop on the second part from where it stopped. -/
theorem cw_encode_loop_append (cw_lut : cw_lut_t) (a b : List uint8_t) :
    ∀ (out : cw_out_t) (i : Nat),
      cw_encode_loop cw_lut out i (a ++ b)
        = if (cw_encode_loop cw_lut out i a).1 = CW_OK
          then cw_encode_loop cw_lut (cw_encode_loop cw_lut out i a).2 (i + a.length) b
          else cw_encode_loop cw_lut out i a := by
  induction a with
  | nil => intro out i; simp [cw_encode_loop]
  | cons x rest ih =>
    intro out i
    by_cases hx : (cw_lut x).is_valid = 0
    · simp [cw_encode_loop, hx]
    · have e1 : ∀ l : List uint8_t, cw_encode_loop cw_lut out i (x :: l)
          = cw_encode_loop cw_lut (fun k => if k = i then cw_lut x else out k) (i + 1) l := by
        intro l; simp [cw_encode_loop, hx]
      rw [List.cons_append, e1, e1, ih, List.length_cons,
        show i + (rest.length + 1) = i + 1 + rest.length by omega]

/-- C11: `cw_encode` never modifies the symbol table: for every table,
output buffer and input, the table in memory after the call is the table
before it (and the call does to `out` what `cw_encode` reading that table
does). Hence a second call on the same input returns the same code and
leaves every output entry as the first call left it, and a call with the same
table on any other output buffer returns the same code and writes the same
entries at the same indices. -/
theorem C11_encode_keeps_table (m : cw_memory) (inp : List uint8_t) :
    (cw_encode_mem m inp).2.cw_lut = m.cw_lut ∧
    (cw_encode_mem m inp).1 = (cw_encode m.cw_lut m.out inp).1 ∧
    (cw_encode_mem m inp).2.out = (cw_encode m.cw_lut m.out inp).2 ∧
    (cw_encode_mem (cw_encode_mem m inp).2 inp).1 = (cw_encode_mem m inp).1 ∧
    (cw_encode_mem (cw_encode_mem m inp).2 inp).2.cw_lut = m.cw_lut ∧
    (cw_encode_mem (cw_encode_mem m inp).2 inp).2.out = (cw_encode_mem m inp).2.out ∧
    (∀ out2 : cw_out_t,
      (cw_encode m.cw_lut out2 inp).1 = (cw_encode m.cw_lut m.out inp).1 ∧
      ∃ n, n ≤ inp.length ∧
        (∀ k, k < n →
          (cw_encode m.cw_lut out2 inp).2 k = (cw_encode m.cw_lut m.out inp).2 k) ∧
        (∀ k, n ≤ k →
          (cw_encode m.cw_lut out2 inp).2 k = out2 k ∧
          (cw_encode m.cw_lut m.out inp).2 k = m.out k)) := by
  obtain ⟨h1, h2, h3⟩ := cw_encode_mem_loop_eq inp m 0
  obtain ⟨g1, g2, g3⟩ := cw_encode_mem_loop_eq inp (cw_encode_mem_loop m 0 inp).2 0
  have hframe : ∀ out2 : cw_out_t,
      (cw_encode m.cw_lut out2 inp).1 = (cw_encode m.cw_lut m.out inp).1 ∧
      ∃ n, n ≤ inp.length ∧
        (∀ k, k < n →
          (cw_encode m.cw_lut out2 inp).2 k = (cw_encode m.cw_lut m.out inp).2 k) ∧
        (∀ k, n ≤ k →
          (cw_encode m.cw_lut out2 inp).2 k = out2 k ∧
          (cw_encode m.cw_lut m.out inp).2 k = m.out k) := by
    intro out2
    obtain ⟨hs, n, hn, hw, hu⟩ := cw_encode_loop_frame m.cw_lut inp out2 m.out 0
    refine ⟨hs, n, hn, ?_, ?_⟩
    · intro k hk; exact hw k (Nat.zero_le k) (by omega)
    · intro k hk; exact hu k (Or.inr (by omega))
  unfold cw_encode_mem
  rw [h1] at g1 g2 g3
  rw [h3] at g2 g3
  refine ⟨h1, h2, h3, ?_, g1, ?_, hframe⟩
  · rw [g2, h2]
    exact (hframe (cw_encode_loop m.cw_lut m.out 0 inp).2).1
  · rw [g3, h3]
    obtain ⟨-, n, -, hw, hu⟩ := hframe (cw_encode_loop m.cw_lut m.out 0 inp).2
    funext k
    rcases Nat.lt_or_ge k n with hk | hk
    · exact hw k hk
    · exact (hu k hk).1

/-- C15: `cw_encode` is compositional over concatenation: for every table,
output buffer and inputs `a` and `b`, the call on `a ++ b` returns `CW_OK`
if and only if the calls on `a` and on `b` both do; in that case the entries
it writes are those written for `a` followed by those written for `b`, and
nothing beyond them is written; and if the call on `a` returns `CW_ERROR`,
the call on `a ++ b` returns `CW_ERROR` and leaves the same output buffer. -/
theorem C15_encode_append (cw_lut : cw_lut_t) (out : cw_out_t) (a b : List uint8_t) :
    ((cw_encode cw_lut out (a ++ b)).1 = CW_OK ↔
      (cw_encode cw_lut out a).1 = CW_OK ∧ (cw_encode cw_lut out b).1 = CW_OK) ∧
    ((cw_encode cw_lut out a).1 = CW_OK → (cw_encode cw_lut out b).1 = CW_OK →
      (∀ k, k < a.length →
        (cw_encode cw_lut out (a ++ b)).2 k = (cw_encode cw_lut out a).2 k) ∧
      (∀ k, k < b.length →
        (cw_encode cw_lut out (a ++ b)).2 (a.length + k) = (cw_encode cw_lut out b).2 k) ∧
      (∀ k, a.length + b.length ≤ k → (cw_encode cw_lut out (a ++ b)).2 k = out k)) ∧
    ((cw_encode cw_lut out a).1 = CW_ERROR →
      cw_encode cw_lut out (a ++ b) = cw_encode cw_lut out a) := by
  unfold cw_encode
  refine ⟨?_, ?_, ?_⟩
  · rw [cw_encode_loop_status, cw_encode_loop_status, cw_encode_loop_status]
    constructor
    · intro h
      exact ⟨fun x hx => h x (List.mem_append_left _ hx),
        fun x hx => h x (List.mem_append_right _ hx)⟩
    · intro h x hx
      rcases List.mem_append.1 hx with hxa | hxb
      · exact h.1 x hxa
      · exact h.2 x hxb
  · intro ha hb
    rw [cw_encode_loop_status] at ha hb
    have hab : ∀ x ∈ a ++ b, (cw_lut x).is_valid ≠ 0 := by
      intro x hx
      rcases List.mem_append.1 hx with hxa | hxb
      · exact ha x hxa
      · exact hb x hxb
    obtain ⟨ab1, ab2⟩ := cw_encode_loop_ok cw_lut (a ++ b) out 0 hab
    obtain ⟨a1, -⟩ := cw_encode_loop_ok cw_lut a out 0 ha
    obtain ⟨b1, -⟩ := cw_encode_loop_ok cw_lut b out 0 hb
    refine ⟨?_, ?_, ?_⟩
    · intro k hk
      have e1 := ab1 k a[k] (by rw [List.getElem?_append_left hk, List.getElem?_eq_getElem hk])
      have e2 := a1 k a[k] (List.getElem?_eq_getElem hk)
      rw [Nat.zero_add] at e1 e2
      rw [e1, e2]
    · intro k hk
      have e1 := ab1 (a.length + k) b[k] (by
        rw [List.getElem?_append_right (by omega), Nat.add_sub_cancel_left,
          List.getElem?_eq_getElem hk])
      have e2 := b1 k b[k] (List.getElem?_eq_getElem hk)
      rw [Nat.zero_add] at e1 e2
      rw [e1, e2]
    · intro k hk
      exact ab2 k (Or.inr (by rw [List.length_append]; omega))
  · intro ha
    rw [cw_encode_loop_append, ha]
    simp

/-- C15 at the table built by `cw_init` and the inputs `S`, `O` and `S`,
space. -/
theorem C15_encode_append_witness :
    ((cw_encode (cw_init cw_lut_zero) (fun _ => cw_char_zero) [chr 'S', chr 'O']).1 = CW_OK ∧
      (cw_encode (cw_init cw_lut_zero) (fun _ => cw_char_zero) [chr 'S', chr ' ']).1 = CW_OK) ∧
    ((∀ k, k < [chr 'S', chr 'O'].length →
        (cw_encode (cw_init cw_lut_zero) (fun _ => cw_char_zero)
          ([chr 'S', chr 'O'] ++ [chr 'S', chr ' '])).2 k
        = (cw_encode (cw_init cw_lut_zero) (fun _ => cw_char_zero) [chr 'S', chr 'O']).2 k) ∧
      (∀ k, k < [chr 'S', chr ' '].length →
        (cw_encode (cw_init cw_lut_zero) (fun _ => cw_char_zero)
          ([chr 'S', chr 'O'] ++ [chr 'S', chr ' '])).2 ([chr 'S', chr 'O'].length + k)
        = (cw_encode (cw_init cw_lut_zero) (fun _ => cw_char_zero) [chr 'S', chr ' ']).2 k) ∧
      (∀ k, [chr 'S', chr 'O'].length + [chr 'S', chr ' '].length ≤ k →
        (cw_encode (cw_init cw_lut_zero) (fun _ => cw_char_zero)
          ([chr 'S', chr 'O'] ++ [chr 'S', chr ' '])).2 k = (fun _ => cw_char_zero) k)) :=
  ⟨⟨by decide, by decide⟩,
   (C15_encode_append (cw_init cw_lut_zero) (fun _ => cw_char_zero)
     [chr 'S', chr 'O'] [chr 'S', chr ' ']).2.1 (by decide) (by decide)⟩

/-- C16: on the zero-initialised table, in which no entry is valid (the
table before `cw_init` has ever run), `cw_encode` on every non-empty input
returns `CW_ERROR` after one iteration: it reads input byte 0, writes the
all-zero entry at output index 0 and leaves every other output index as it
was; on the empty input it returns `CW_OK` and writes nothing. -/
theorem C16_encode_before_init (out : cw_out_t) (inp : List uint8_t) (h : inp ≠ []) :
    (∀ b : uint8_t, (cw_lut_zero b).is_valid = 0) ∧
    (cw_encode cw_lut_zero out inp).1 = CW_ERROR ∧
    (cw_encode cw_lut_zero out inp).2 0 = cw_char_zero ∧
    (∀ k, k ≠ 0 → (cw_encode cw_lut_zero out inp).2 k = out k) ∧
    (cw_char_zero.is_valid = 0 ∧ cw_char_zero.s_num = 0 ∧
      cw_char_zero.s = List.replicate 10 cw_symbol_zero ∧ cw_symbol_zero.toNat = 0) ∧
    (∃ out1 acc, cw_encode_run cw_lut_zero inp (inp.length + 1) 0 out cw_access_none
        = cw_outcome.returned CW_ERROR out1 acc ∧
      acc.iterations = 1 ∧ acc.in_reads = [0] ∧ acc.out_writes = [0]) ∧
    cw_encode cw_lut_zero out [] = (CW_OK, out) := by
  cases inp with
  | nil => exact absurd rfl h
  | cons b rest =>
    refine ⟨fun _ => rfl, rfl, rfl, ?_, ⟨rfl, rfl, rfl, rfl⟩, ?_, rfl⟩
    · intro k hk
      simp [cw_encode, cw_encode_loop, cw_lut_zero, cw_char_zero, hk]
    · refine ⟨fun k => if k = 0 then cw_char_zero else out k,
        { iterations := 1, in_reads := [0], lut_reads := [b.val], out_writes := [0] },
        ?_, rfl, rfl, rfl⟩
      simp [cw_encode_run, cw_lut_at, cw_lut_zero, cw_char_zero, cw_access_none,
        cw_access_step]

/-- C16 at the one-byte input `S`. -/
theorem C16_encode_before_init_witness :
    [chr 'S'] ≠ [] ∧
    ((∀ b : uint8_t, (cw_lut_zero b).is_valid = 0) ∧
    (cw_encode cw_lut_zero (fun _ => cw_char_zero) [chr 'S']).1 = CW_ERROR ∧
    (cw_encode cw_lut_zero (fun _ => cw_char_zero) [chr 'S']).2 0 = cw_char_zero ∧
    (∀ k, k ≠ 0 →
      (cw_encode cw_lut_zero (fun _ => cw_char_zero) [chr 'S']).2 k
        = (fun _ => cw_char_zero) k) ∧
    (cw_char_zero.is_valid = 0 ∧ cw_char_zero.s_num = 0 ∧
      cw_char_zero.s = List.replicate 10 cw_symbol_zero ∧ cw_symbol_zero.toNat = 0) ∧
    (∃ out1 acc, cw_encode_run cw_lut_zero [chr 'S'] ([chr 'S'].length + 1) 0
        (fun _ => cw_char_zero) cw_access_none
        = cw_outcome.returned CW_ERROR out1 acc ∧
      acc.iterations = 1 ∧ acc.in_reads = [0] ∧ acc.out_writes = [0]) ∧
    cw_encode cw_lut_zero (fun _ => cw_char_zero) [] = (CW_OK, fun _ => cw_char_zero)) :=
  ⟨by decide, C16_encode_before_init (fun _ => cw_char_zero) [chr 'S'] (by decide)⟩

/-! ## Lemmas on the entries built by cw_init -/

/-- The shape of the valid entries of letters and digits: pulses at the even
indices, symbol gaps at the odd indices before the last, the character gap
at the last. -/
theorem cw_init_zero_shape :
    ∀ b : uint8_t, (cw_init cw_lut_zero b).is_valid ≠ 0 → b ≠ chr ' ' →
      (cw_init cw_lut_zero b).s_num % 2 = 0 ∧ 2 ≤ (cw_init cw_lut_zero b).s_num ∧
      (cw_init cw_lut_zero b).used.count CW_DOT + (cw_init cw_lut_zero b).used.count CW_DASH
        = (cw_init cw_lut_zero b).s_num / 2 ∧
      ∀ j, j < (cw_init cw_lut_zero b).s_num →
        (j % 2 = 0 → (cw_init cw_lut_zero b).s[j]? = some CW_DOT ∨
          (cw_init cw_lut_zero b).s[j]? = some CW_DASH) ∧
        (j % 2 = 1 → j < (cw_init cw_lut_zero b).s_num - 1 →
          (cw_init cw_lut_zero b).s[j]? = some CW_SYMBOL_DELIM) ∧
        (j = (cw_init cw_lut_zero b).s_num - 1 →
          (cw_init cw_lut_zero b).s[j]? = some CW_CHAR_DELIM) := by
  decide

/-- The element counts of the entries built by `cw_init`. -/
theorem cw_init_zero_counts :
    (∀ b : uint8_t, (cw_init cw_lut_zero b).s_num ≤ 10 ∧
      (cw_init cw_lut_zero b).s.length = 10 ∧
      (cw_init cw_lut_zero b).used.length = (cw_init cw_lut_zero b).s_num) ∧
    (∀ b : uint8_t, is_digit b → (cw_init cw_lut_zero b).s_num = 10) ∧
    (∀ b : uint8_t, is_letter_not_X b ∨ b = chr ' ' →
      (cw_init cw_lut_zero b).s_num < 10 ∧ (cw_init cw_lut_zero b).s_num ≤ 8) ∧
    (∀ b : uint8_t, ¬ is_digit b → (cw_init cw_lut_zero b).s_num ≤ 8) := by
  decide

/-- The counter `i` after a run of `s[i++]` assignments. -/
theorem foldl_assign_s_post_inc_i (c : Char) (syms : List cw_symbol_t) :
    ∀ st : init_state, st.i < 256 →
      (syms.foldl (assign_s_post_inc c) st).i = (st.i + syms.length) % 256 := by
  induction syms with
  | nil => intro st h; simp; omega
  | cons x rest ih =>
    intro st h
    have h1 : (assign_s_post_inc c st x).i = (st.i + 1) % 256 := rfl
    rw [List.foldl_cons, ih _ (by rw [h1]; omega), List.length_cons, h1]
    omega

/-- C12: after `cw_init`, every valid entry other than the one of space has
an even element count `s_num = 2p` with `p >= 1` pulses, and for every index
`j < s_num`: at even `j` the element is a dot or a dash, at odd `j` before
the last it is the symbol gap, and at `j = s_num - 1` it is the character
gap; so one symbol gap separates consecutive pulses and no gap precedes the
first pulse. -/
theorem C12_entry_shape (cw_lut : cw_lut_t) (b : uint8_t)
    (hv : (cw_init cw_lut b).is_valid ≠ 0) (hb : b ≠ chr ' ') :
    ∃ p, 1 ≤ p ∧ (cw_init cw_lut b).s_num = 2 * p ∧
      (cw_init cw_lut b).used.count CW_DOT + (cw_init cw_lut b).used.count CW_DASH = p ∧
      ∀ j, j < (cw_init cw_lut b).s_num →
        (j % 2 = 0 → (cw_init cw_lut b).s[j]? = some CW_DOT ∨
          (cw_init cw_lut b).s[j]? = some CW_DASH) ∧
        (j % 2 = 1 → j < (cw_init cw_lut b).s_num - 1 →
          (cw_init cw_lut b).s[j]? = some CW_SYMBOL_DELIM) ∧
        (j = (cw_init cw_lut b).s_num - 1 →
          (cw_init cw_lut b).s[j]? = some CW_CHAR_DELIM) := by
  rw [cw_init_eq_zero cw_lut] at hv ⊢
  obtain ⟨heven, htwo, hpulses, hshape⟩ := cw_init_zero_shape b hv hb
  exact ⟨(cw_init cw_lut_zero b).s_num / 2, by omega, by omega, hpulses, hshape⟩

/-- C12 at the byte `S`. -/
theorem C12_entry_shape_witness :
    ((cw_init cw_lut_zero (chr 'S')).is_valid ≠ 0 ∧ chr 'S' ≠ chr ' ') ∧
    ∃ p, 1 ≤ p ∧ (cw_init cw_lut_zero (chr 'S')).s_num = 2 * p ∧
      (cw_init cw_lut_zero (chr 'S')).used.count CW_DOT
        + (cw_init cw_lut_zero (chr 'S')).used.count CW_DASH = p ∧
      ∀ j, j < (cw_init cw_lut_zero (chr 'S')).s_num →
        (j % 2 = 0 → (cw_init cw_lut_zero (chr 'S')).s[j]? = some CW_DOT ∨
          (cw_init cw_lut_zero (chr 'S')).s[j]? = some CW_DASH) ∧
        (j % 2 = 1 → j < (cw_init cw_lut_zero (chr 'S')).s_num - 1 →
          (cw_init cw_lut_zero (chr 'S')).s[j]? = some CW_SYMBOL_DELIM) ∧
        (j = (cw_init cw_lut_zero (chr 'S')).s_num - 1 →
          (cw_init cw_lut_zero (chr 'S')).s[j]? = some CW_CHAR_DELIM) :=
  ⟨⟨by decide, by decide⟩, C12_entry_shape cw_lut_zero (chr 'S') (by decide) (by decide)⟩

/-- C13: after `cw_init`, every entry has element count at most 10, within
an element array that still has its 10 slots, so that the elements in use
are `s_num` slots of the array; the count is exactly 10 for each digit and
less than 10, indeed at most 8, for every letter, for space and for every
other byte that is not a digit. In a block
of `cw_init` with fewer than 256 assignments `s[i++] = ...`, assignment
number `k` writes at index `k` and the count stored is the number of
assignments, so that a count of at most 10 means writes at indices 0..9. -/
theorem C13_element_count_bound (cw_lut : cw_lut_t) :
    (∀ b : uint8_t, (cw_init cw_lut b).s_num ≤ CW_MAX_SYMBOLS ∧
      (cw_init cw_lut b).s.length = CW_MAX_SYMBOLS ∧
      (cw_init cw_lut b).used.length = (cw_init cw_lut b).s_num) ∧
    CW_MAX_SYMBOLS = 10 ∧
    (∀ b : uint8_t, is_digit b → (cw_init cw_lut b).s_num = 10) ∧
    (∀ b : uint8_t, is_letter_not_X b ∨ b = chr ' ' →
      (cw_init cw_lut b).s_num < 10 ∧ (cw_init cw_lut b).s_num ≤ 8) ∧
    (∀ b : uint8_t, ¬ is_digit b → (cw_init cw_lut b).s_num ≤ 8) ∧
    (∀ (c : Char) (syms : List cw_symbol_t) (st : init_state), syms.length < 256 →
      ((char_block c syms st).cw_lut (chr c)).s_num = syms.length ∧
      ∀ k, k < syms.length →
        ((syms.take k).foldl (assign_s_post_inc c)
          (assign_is_valid c 1 (assign_i_zero st))).i = k) := by
  rw [cw_init_eq_zero cw_lut]
  refine ⟨cw_init_zero_counts.1, rfl, cw_init_zero_counts.2.1, cw_init_zero_counts.2.2.1,
    cw_init_zero_counts.2.2.2, ?_⟩
  intro c syms st hlen
  have h0 : (assign_is_valid c 1 (assign_i_zero st)).i = 0 := rfl
  refine ⟨?_, ?_⟩
  · have hnum : ((char_block c syms st).cw_lut (chr c)).s_num
        = (syms.foldl (assign_s_post_inc c) (assign_is_valid c 1 (assign_i_zero st))).i := by
      simp [char_block, assign_s_num_i, cw_lut_modify]
    rw [hnum, foldl_assign_s_post_inc_i c syms _ (by rw [h0]; omega), h0]
    omega
  · intro k hk
    rw [foldl_assign_s_post_inc_i c (syms.take k) _ (by rw [h0]; omega), h0,
      List.length_take]
    omega

/-- C13 at the block of the digit `0`: ten assignments, the last at index 9. -/
theorem C13_element_count_bound_witness :
    [CW_DASH, CW_SYMBOL_DELIM, CW_DASH, CW_SYMBOL_DELIM, CW_DASH, CW_SYMBOL_DELIM,
      CW_DASH, CW_SYMBOL_DELIM, CW_DASH, CW_CHAR_DELIM].length < 256 ∧
    (((char_block '0' [CW_DASH, CW_SYMBOL_DELIM, CW_DASH, CW_SYMBOL_DELIM, CW_DASH,
        CW_SYMBOL_DELIM, CW_DASH, CW_SYMBOL_DELIM, CW_DASH, CW_CHAR_DELIM]
        { cw_lut := cw_lut_zero, i := 0 }).cw_lut (chr '0')).s_num
      = [CW_DASH, CW_SYMBOL_DELIM, CW_DASH, CW_SYMBOL_DELIM, CW_DASH, CW_SYMBOL_DELIM,
          CW_DASH, CW_SYMBOL_DELIM, CW_DASH, CW_CHAR_DELIM].length ∧
      ∀ k, k < [CW_DASH, CW_SYMBOL_DELIM, CW_DASH, CW_SYMBOL_DELIM, CW_DASH, CW_SYMBOL_DELIM,
          CW_DASH, CW_SYMBOL_DELIM, CW_DASH, CW_CHAR_DELIM].length →
        (([CW_DASH, CW_SYMBOL_DELIM, CW_DASH, CW_SYMBOL_DELIM, CW_DASH, CW_SYMBOL_DELIM,
            CW_DASH, CW_SYMBOL_DELIM, CW_DASH, CW_CHAR_DELIM].take k).foldl
          (assign_s_post_inc '0')
          (assign_is_valid '0' 1 (assign_i_zero { cw_lut := cw_lut_zero, i := 0 }))).i = k) :=
  ⟨by decide,
   (C13_element_count_bound cw_lut_zero).2.2.2.2.2 '0'
     [CW_DASH, CW_SYMBOL_DELIM, CW_DASH, CW_SYMBOL_DELIM, CW_DASH, CW_SYMBOL_DELIM,
       CW_DASH, CW_SYMBOL_DELIM, CW_DASH, CW_CHAR_DELIM]
     { cw_lut := cw_lut_zero, i := 0 } (by decide)⟩

/-! ## Lemmas for decoding -/

/-- The decoder recovers every supported byte from its entry. -/
theorem cw_decode_entry_used :
    ∀ x : uint8_t, is_supported x →
      cw_decode_entry (cw_init cw_lut_zero x).used = some x := by
  decide

/-- No two supported bytes have the same elements in use. -/
theorem cw_init_zero_injective (x y : uint8_t) (hx : is_supported x) (hy : is_supported y)
    (h : (cw_init cw_lut_zero x).used = (cw_init cw_lut_zero y).used) : x = y := by
  have h1 := cw_decode_entry_used x hx
  rw [h, cw_decode_entry_used y hy] at h1
  exact (Option.some.inj h1).symm

/-- The elements in use of a supported byte end with a character gap or a
word gap and hold neither before that. -/
theorem cw_init_zero_terminated :
    ∀ x : uint8_t, is_supported x →
      (∀ z ∈ (cw_init cw_lut_zero x).used.dropLast, z ≠ CW_CHAR_DELIM ∧ z ≠ CW_WORD_DELIM) ∧
      ((cw_init cw_lut_zero x).used.getLast? = some CW_CHAR_DELIM ∨
        (cw_init cw_lut_zero x).used.getLast? = some CW_WORD_DELIM) := by
  decide

/-- A list is cut at its first delimiter in one way only. -/
theorem split_at_delim_unique {α : Type} (D : α → Prop) :
    ∀ (l1 l2 : List α) (d1 d2 : α) (r1 r2 : List α),
      (∀ z ∈ l1, ¬ D z) → (∀ z ∈ l2, ¬ D z) → D d1 → D d2 →
      l1 ++ d1 :: r1 = l2 ++ d2 :: r2 → l1 = l2 ∧ d1 = d2 ∧ r1 = r2 := by
  intro l1
  induction l1 with
  | nil =>
    intro l2 d1 d2 r1 r2 _ h2 hd1 _ h
    cases l2 with
    | nil =>
      simp only [List.nil_append, List.cons.injEq] at h
      exact ⟨rfl, h.1, h.2⟩
    | cons y l2 =>
      simp only [List.nil_append, List.cons_append, List.cons.injEq] at h
      exact absurd (h.1 ▸ hd1) (h2 y (List.mem_cons_self _ _))
  | cons x l1 ih =>
    intro l2 d1 d2 r1 r2 h1 h2 hd1 hd2 h
    cases l2 with
    | nil =>
      simp only [List.nil_append, List.cons_append, List.cons.injEq] at h
      exact absurd (h.1 ▸ hd2) (h1 x (List.mem_cons_self _ _))
    | cons y l2 =>
      simp only [List.cons_append, List.cons.injEq] at h
      obtain ⟨e1, e2, e3⟩ := ih l2 d1 d2 r1 r2
        (fun z hz => h1 z (List.mem_cons_of_mem _ hz))
        (fun z hz => h2 z (List.mem_cons_of_mem _ hz)) hd1 hd2 h.2
      exact ⟨by rw [h.1, e1], e2, e3⟩

/-- The elements in use of a supported byte: a delimiter-free front and one
closing delimiter. -/
theorem cw_init_zero_front (x : uint8_t) (hx : is_supported x) :
    ∃ front d, (cw_init cw_lut_zero x).used = front ++ [d] ∧
      (∀ z ∈ front, ¬ (z = CW_CHAR_DELIM ∨ z = CW_WORD_DELIM)) ∧
      (d = CW_CHAR_DELIM ∨ d = CW_WORD_DELIM) := by
  obtain ⟨hfront, hlast⟩ := cw_init_zero_terminated x hx
  have hd : ∃ d, (cw_init cw_lut_zero x).used.getLast? = some d ∧
      (d = CW_CHAR_DELIM ∨ d = CW_WORD_DELIM) := by
    rcases hlast with h | h
    · exact ⟨_, h, Or.inl rfl⟩
    · exact ⟨_, h, Or.inr rfl⟩
  obtain ⟨d, hd1, hd2⟩ := hd
  refine ⟨(cw_init cw_lut_zero x).used.dropLast, d, ?_, ?_, hd2⟩
  · exact (List.dropLast_append_getLast? d hd1).symm
  · intro z hz hzd
    obtain ⟨n1, n2⟩ := hfront z hz
    rcases hzd with h | h
    · exact n1 h
    · exact n2 h

/-- The element stream of a sequence of supported bytes determines the
sequence. -/
theorem flatMap_used_injective :
    ∀ a b : List uint8_t, (∀ x ∈ a, is_supported x) → (∀ y ∈ b, is_supported y) →
      a.flatMap (fun x => (cw_init cw_lut_zero x).used)
        = b.flatMap (fun x => (cw_init cw_lut_zero x).used) → a = b := by
  intro a
  induction a with
  | nil =>
    intro b _ hb h
    cases b with
    | nil => rfl
    | cons y ys =>
      obtain ⟨front, d, hy, -, -⟩ := cw_init_zero_front y (hb y (List.mem_cons_self _ _))
      rw [List.flatMap_nil, List.flatMap_cons, hy] at h
      simp at h
  | cons x xs ih =>
    intro b ha hb h
    cases b with
    | nil =>
      obtain ⟨front, d, hx, -, -⟩ := cw_init_zero_front x (ha x (List.mem_cons_self _ _))
      rw [List.flatMap_nil, List.flatMap_cons, hx] at h
      simp at h
    | cons y ys =>
      have hxs := ha x (List.mem_cons_self _ _)
      have hys := hb y (List.mem_cons_self _ _)
      obtain ⟨fx, dx, hx, hfx, hdx⟩ := cw_init_zero_front x hxs
      obtain ⟨fy, dy, hy, hfy, hdy⟩ := cw_init_zero_front y hys
      rw [List.flatMap_cons, List.flatMap_cons, hx, hy, List.append_assoc, List.append_assoc,
        List.singleton_append, List.singleton_append] at h
      obtain ⟨e1, e2, e3⟩ := split_at_delim_unique
        (fun z => z = CW_CHAR_DELIM ∨ z = CW_WORD_DELIM) fx fy dx dy _ _ hfx hfy hdx hdy h
      have hxy : x = y := cw_init_zero_injective x y hxs hys (by rw [hx, hy, e1, e2])
      have htl : xs = ys := ih ys (fun z hz => ha z (List.mem_cons_of_mem _ hz))
        (fun z hz => hb z (List.mem_cons_of_mem _ hz)) e3
      rw [hxy, htl]

/-- The element stream of an output buffer whose first entries are the
table entries of the input bytes. -/
theorem cw_stream_eq_flatMap (cw_lut : cw_lut_t) (out : cw_out_t) :
    ∀ a : List uint8_t, (∀ k b, a[k]? = some b → out k = cw_lut b) →
      cw_stream out a.length = a.flatMap (fun b => (cw_lut b).used) := by
  intro a
  induction a using List.reverseRecOn with
  | nil => intro _; rfl
  | append_singleton a x ih =>
    intro h
    have hpre : ∀ k b, a[k]? = some b → out k = cw_lut b := by
      intro k b hk
      apply h k b
      have hlt : k < a.length := by
        rcases Nat.lt_or_ge k a.length with hlt | hge
        · exact hlt
        · rw [List.getElem?_eq_none hge] at hk; cases hk
      rw [List.getElem?_append_left hlt]
      exact hk
    have hx : out a.length = cw_lut x := by
      apply h a.length x
      rw [List.getElem?_append_right (Nat.le_refl _)]
      simp
    have hstep : cw_stream out (a.length + 1) = cw_stream out a.length ++ (out a.length).used := by
      unfold cw_stream
      rw [List.range_succ, List.flatMap_append]
      simp
    rw [List.length_append, List.length_singleton, hstep, ih hpre, hx, List.flatMap_append]
    simp

/-- C14: the encoding is uniquely decodable: after `cw_init`, for any two
inputs whose bytes are all supported, if the element streams read from the
output entries `cw_encode` writes for them (the elements in use of each
entry, concatenated in order) are equal, the inputs are equal; in particular
two distinct supported bytes never have the same elements in use. -/
theorem C14_uniquely_decodable (cw_lut : cw_lut_t) :
    (∀ (out1 out2 : cw_out_t) (a b : List uint8_t),
      (∀ x ∈ a, is_supported x) → (∀ y ∈ b, is_supported y) →
      cw_stream (cw_encode (cw_init cw_lut) out1 a).2 a.length
        = cw_stream (cw_encode (cw_init cw_lut) out2 b).2 b.length → a = b) ∧
    (∀ x y : uint8_t, is_supported x → is_supported y → x ≠ y →
      (cw_init cw_lut x).used ≠ (cw_init cw_lut y).used) := by
  rw [cw_init_eq_zero cw_lut]
  refine ⟨?_, ?_⟩
  · intro out1 out2 a b ha hb h
    have hva : ∀ x ∈ a, (cw_init cw_lut_zero x).is_valid ≠ 0 :=
      fun x hx => (cw_init_valid_iff cw_lut_zero x).2 (ha x hx)
    have hvb : ∀ y ∈ b, (cw_init cw_lut_zero y).is_valid ≠ 0 :=
      fun y hy => (cw_init_valid_iff cw_lut_zero y).2 (hb y hy)
    obtain ⟨ea, -⟩ := cw_encode_loop_ok (cw_init cw_lut_zero) a out1 0 hva
    obtain ⟨eb, -⟩ := cw_encode_loop_ok (cw_init cw_lut_zero) b out2 0 hvb
    have sa := cw_stream_eq_flatMap (cw_init cw_lut_zero)
      (cw_encode (cw_init cw_lut_zero) out1 a).2 a
      (fun k x hk => by have := ea k x hk; rwa [Nat.zero_add] at this)
    have sb := cw_stream_eq_flatMap (cw_init cw_lut_zero)
      (cw_encode (cw_init cw_lut_zero) out2 b).2 b
      (fun k x hk => by have := eb k x hk; rwa [Nat.zero_add] at this)
    rw [sa, sb] at h
    exact flatMap_used_injective a b ha hb h
  · intro x y hx hy hxy h
    exact hxy (cw_init_zero_injective x y hx hy h)

/-- C14 at the inputs `S`, `O`, `S` (twice) and at the bytes `S` and `O`. -/
theorem C14_uniquely_decodable_witness :
    (((∀ x ∈ [chr 'S', chr 'O', chr 'S'], is_supported x) ∧
      cw_stream (cw_encode (cw_init cw_lut_zero) (fun _ => cw_char_zero)
          [chr 'S', chr 'O', chr 'S']).2 [chr 'S', chr 'O', chr 'S'].length
        = cw_stream (cw_encode (cw_init cw_lut_zero) (fun _ => cw_char_zero)
          [chr 'S', chr 'O', chr 'S']).2 [chr 'S', chr 'O', chr 'S'].length) ∧
      [chr 'S', chr 'O', chr 'S'] = [chr 'S', chr 'O', chr 'S']) ∧
    ((is_supported (chr 'S') ∧ is_supported (chr 'O') ∧ chr 'S' ≠ chr 'O') ∧
      (cw_init cw_lut_zero (chr 'S')).used ≠ (cw_init cw_lut_zero (chr 'O')).used) :=
  ⟨⟨⟨by decide, rfl⟩,
    (C14_uniquely_decodable cw_lut_zero).1 (fun _ => cw_char_zero) (fun _ => cw_char_zero)
      [chr 'S', chr 'O', chr 'S'] [chr 'S', chr 'O', chr 'S'] (by decide) (by decide) rfl⟩,
   ⟨⟨by decide, by decide, by decide⟩,
    (C14_uniquely_decodable cw_lut_zero).2 (chr 'S') (chr 'O')
      (by decide) (by decide) (by decide)⟩⟩

/-! ## Lemmas on the recorded run -/

/-- A byte value is an index into the table. -/
theorem cw_lut_at_val (cw_lut : cw_lut_t) (b : uint8_t) :
    cw_lut_at cw_lut b.val = some (cw_lut b) := by
  simp [cw_lut_at]

/-- The recorded run from index `i` returns what the loop returns, within as
many iterations as bytes are left, and records accesses in range only. -/
theorem cw_encode_run_spec (cw_lut : cw_lut_t) (inp : List uint8_t) :
    ∀ (fuel i : Nat) (out : cw_out_t) (acc : cw_access),
      i ≤ inp.length → inp.length - i < fuel →
      ∃ acc1, cw_encode_run cw_lut inp fuel i out acc
          = cw_outcome.returned (cw_encode_loop cw_lut out i (inp.drop i)).1
              (cw_encode_loop cw_lut out i (inp.drop i)).2 acc1 ∧
        acc1.iterations ≤ acc.iterations + (inp.length - i) ∧
        (∀ r ∈ acc1.in_reads, r ∈ acc.in_reads ∨ r < inp.length) ∧
        (∀ w ∈ acc1.out_writes, w ∈ acc.out_writes ∨ w < inp.length) ∧
        (∀ l ∈ acc1.lut_reads, l ∈ acc.lut_reads ∨ l < 256) := by
  intro fuel
  induction fuel with
  | zero => intro i out acc _ h; omega
  | succ fuel ih =>
    intro i out acc hi hfuel
    by_cases hlt : i < inp.length
    · have hget : inp[i]? = some inp[i] := List.getElem?_eq_getElem hlt
      have hdrop : inp.drop i = inp[i] :: inp.drop (i + 1) := List.drop_eq_getElem_cons hlt
      by_cases hv : (cw_lut inp[i]).is_valid = 0
      · refine ⟨cw_access_step acc i (inp[i]).val, ?_, ?_, ?_, ?_, ?_⟩
        · rw [hdrop]
          simp [cw_encode_run, cw_encode_loop, hlt, hget, cw_lut_at_val, hv]
        · show acc.iterations + 1 ≤ acc.iterations + (inp.length - i)
          omega
        · intro r hr
          rcases List.mem_cons.1 hr with h | h
          · right; omega
          · left; exact h
        · intro w hw
          rcases List.mem_cons.1 hw with h | h
          · right; omega
          · left; exact h
        · intro l hl
          rcases List.mem_cons.1 hl with h | h
          · right; rw [h]; exact (inp[i]).isLt
          · left; exact h
      · obtain ⟨acc1, h1, h2, h3, h4, h5⟩ := ih (i + 1)
          (fun k => if k = i then cw_lut inp[i] else out k)
          (cw_access_step acc i (inp[i]).val) (by omega) (by omega)
        refine ⟨acc1, ?_, ?_, ?_, ?_, ?_⟩
        · rw [hdrop]
          simp only [cw_encode_run, cw_encode_loop, hlt, hget, cw_lut_at_val, hv, if_true,
            if_false]
          exact h1
        · have : acc1.iterations ≤ acc.iterations + 1 + (inp.length - (i + 1)) := h2
          omega
        · intro r hr
          rcases h3 r hr with h | h
          · rcases List.mem_cons.1 h with h | h
            · right; omega
            · left; exact h
          · right; exact h
        · intro w hw
          rcases h4 w hw with h | h
          · rcases List.mem_cons.1 h with h | h
            · right; omega
            · left; exact h
          · right; exact h
        · intro l hl
          rcases h5 l hl with h | h
          · rcases List.mem_cons.1 h with h | h
            · right; rw [h]; exact (inp[i]).isLt
            · left; exact h
          · right; exact h
    · have hlen : i = inp.length := by omega
      refine ⟨acc, ?_, by omega, fun r hr => Or.inl hr, fun w hw => Or.inl hw,
        fun l hl => Or.inl hl⟩
      have hnil : inp.drop i = [] := by rw [hlen]; exact List.drop_length inp
      rw [hnil]
      simp [cw_encode_run, cw_encode_loop, hlt]

/-- C17: `cw_encode` is total and its accesses are in bounds: for every
table, output buffer and input of length `len`, the loop run with a budget
of more than `len` loop tests returns, with the code and the output buffer
of `cw_encode`, after at most `len` executions of its body; it reads `in`
and writes `out` at indices below `len` only, and every index at which it
reads the table is a byte value below 256, at which the 256-entry table is
defined, so that the run never ends in an out-of-range access. -/
theorem C17_encode_total_in_bounds (cw_lut : cw_lut_t) (out : cw_out_t)
    (inp : List uint8_t) (fuel : Nat) (hfuel : inp.length < fuel) :
    (∃ acc, cw_encode_run cw_lut inp fuel 0 out cw_access_none
        = cw_outcome.returned (cw_encode cw_lut out inp).1 (cw_encode cw_lut out inp).2 acc ∧
      acc.iterations ≤ inp.length ∧
      (∀ r ∈ acc.in_reads, r < inp.length) ∧
      (∀ w ∈ acc.out_writes, w < inp.length) ∧
      (∀ l ∈ acc.lut_reads, l < 256 ∧ (cw_lut_at cw_lut l).isSome = true)) ∧
    (∀ b : uint8_t, b.val < 256 ∧ cw_lut_at cw_lut b.val = some (cw_lut b)) := by
  refine ⟨?_, fun b => ⟨b.isLt, cw_lut_at_val cw_lut b⟩⟩
  obtain ⟨acc, h1, h2, h3, h4, h5⟩ :=
    cw_encode_run_spec cw_lut inp fuel 0 out cw_access_none (Nat.zero_le _) (by omega)
  rw [List.drop_zero] at h1
  refine ⟨acc, h1, ?_, ?_, ?_, ?_⟩
  · have : acc.iterations ≤ 0 + (inp.length - 0) := h2
    omega
  · intro r hr
    rcases h3 r hr with h | h
    · cases h
    · exact h
  · intro w hw
    rcases h4 w hw with h | h
    · cases h
    · exact h
  · intro l hl
    have hl256 : l < 256 := by
      rcases h5 l hl with h | h
      · cases h
      · exact h
    exact ⟨hl256, by simp [cw_lut_at, hl256]⟩

/-- C17 at the table built by `cw_init`, the input `S`, `O`, `S` and a
budget of four loop tests. -/
theorem C17_encode_total_in_bounds_witness :
    [chr 'S', chr 'O', chr 'S'].length < 4 ∧
    ((∃ acc, cw_encode_run (cw_init cw_lut_zero) [chr 'S', chr 'O', chr 'S'] 4 0
          (fun _ => cw_char_zero) cw_access_none
        = cw_outcome.returned
            (cw_encode (cw_init cw_lut_zero) (fun _ => cw_char_zero)
              [chr 'S', chr 'O', chr 'S']).1
            (cw_encode (cw_init cw_lut_zero) (fun _ => cw_char_zero)
              [chr 'S', chr 'O', chr 'S']).2 acc ∧
      acc.iterations ≤ [chr 'S', chr 'O', chr 'S'].length ∧
      (∀ r ∈ acc.in_reads, r < [chr 'S', chr 'O', chr 'S'].length) ∧
      (∀ w ∈ acc.out_writes, w < [chr 'S', chr 'O', chr 'S'].length) ∧
      (∀ l ∈ acc.lut_reads, l < 256 ∧ (cw_lut_at (cw_init cw_lut_zero) l).isSome = true)) ∧
    (∀ b : uint8_t, b.val < 256 ∧
      cw_lut_at (cw_init cw_lut_zero) b.val = some (cw_init cw_lut_zero b))) :=
  ⟨by decide,
   C17_encode_total_in_bounds (cw_init cw_lut_zero) (fun _ => cw_char_zero)
     [chr 'S', chr 'O', chr 'S'] 4 (by decide)⟩

end CW
